import Mathlib

/-!
Verification of the label-covering state-space search engine of the GST
repository: the exact variant `basic` (src/basic.py) and the heuristically
pruned variant `pruned_dp` (src/PrunedDP.py).

The embedding is executable and follows the Python source closely:
* costs are rationals; the value `float('inf')` carried by `best_cost`
  is modelled as `Option ℚ` with `none` standing for plus infinity;
* the priority queue is CPython's `heapq` (binary heap with `_siftup` and
  `_siftdown`), including Python's tuple comparison on
  `(cost, vertex, frozenset, path)` entries, where frozensets compare by
  strict inclusion and lists of strings compare lexicographically;
* the visited table is an insertion-ordered association list, matching
  Python dict semantics (updates keep the key position, new keys append);
* the main loops are run on explicit fuel; `none` means the fuel was
  exhausted before the frontier emptied.  All theorems about results are
  stated for runs that complete (`= some r`), i.e. partial correctness.
-/

namespace GST

/-- A frontier entry, Python's tuple `(cost, v, labels, path)`. -/
structure Entry where
  cost : ℚ
  vertex : String
  labels : Finset String
  path : List String
deriving DecidableEq

instance : Inhabited Entry := ⟨⟨0, "", ∅, []⟩⟩

/-- Python's `<` on character sequences (code-point lexicographic,
shorter prefix first). -/
def pyCharsLt : List Char → List Char → Bool
  | [], [] => false
  | [], _ :: _ => true
  | _ :: _, [] => false
  | a :: as, b :: bs => if a = b then pyCharsLt as bs else decide (a.toNat < b.toNat)

/-- Python's `<` on strings (code-point lexicographic). -/
def pyStrLt (a b : String) : Bool := pyCharsLt a.data b.data

/-- Python's `<` on lists of strings (lexicographic, shorter prefix first). -/
def pyListLt : List String → List String → Bool
  | [], [] => false
  | [], _ :: _ => true
  | _ :: _, [] => false
  | a :: as, b :: bs => if a = b then pyListLt as bs else pyStrLt a b

/-- Python's `<` on heap entries: tuple comparison componentwise, with
frozensets compared by strict inclusion (a partial order, as in CPython). -/
def pyLt (a b : Entry) : Bool :=
  if a.cost = b.cost then
    if a.vertex = b.vertex then
      if a.labels = b.labels then pyListLt a.path b.path
      else decide (a.labels ⊂ b.labels)
    else pyStrLt a.vertex b.vertex
  else decide (a.cost < b.cost)

section Heap

variable {α : Type} [Inhabited α]

/-- CPython `heapq._siftdown(heap, startpos, pos)` with the moving item
passed explicitly: bubble `newitem` towards the root.  The extra `fuel`
argument makes the recursion structural (and so kernel-reducible); the
wrapper below passes `fuel = pos + 1`, and since each iteration strictly
decreases `pos` the zero-fuel case is never reached. -/
def siftdownFuel (lt : α → α → Bool) (startpos : Nat) (newitem : α) :
    Nat → List α → Nat → List α
  | 0, heap, pos => heap.set pos newitem
  | fuel + 1, heap, pos =>
    if startpos < pos then
      let parentpos := (pos - 1) / 2
      let parent := heap.getD parentpos default
      if lt newitem parent then
        siftdownFuel lt startpos newitem fuel (heap.set pos parent) parentpos
      else heap.set pos newitem
    else heap.set pos newitem

/-- CPython `heapq._siftdown(heap, startpos, pos)`. -/
def siftdownGo (lt : α → α → Bool) (startpos : Nat) (newitem : α)
    (heap : List α) (pos : Nat) : List α :=
  siftdownFuel lt startpos newitem (pos + 1) heap pos

/-- CPython `heapq.heappush`. -/
def heappush (lt : α → α → Bool) (heap : List α) (item : α) : List α :=
  siftdownGo lt 0 item (heap ++ [item]) heap.length

/-- The loop of CPython `heapq._siftup`: move the hole at `pos` down to a
leaf, returning the final heap and hole position.  The extra `fuel`
argument makes the recursion structural; the wrapper passes
`fuel = endpos`, and since `pos` strictly increases while staying below
`endpos` the zero-fuel case is never reached. -/
def siftupFuel (lt : α → α → Bool) (endpos : Nat) :
    Nat → List α → Nat → List α × Nat
  | 0, heap, pos => (heap, pos)
  | fuel + 1, heap, pos =>
    if 2 * pos + 1 < endpos then
      let childpos := 2 * pos + 1
      let c :=
        if childpos + 1 < endpos ∧
            ¬ lt (heap.getD childpos default) (heap.getD (childpos + 1) default)
        then childpos + 1 else childpos
      siftupFuel lt endpos fuel (heap.set pos (heap.getD c default)) c
    else (heap, pos)

/-- The loop of CPython `heapq._siftup`. -/
def siftupGo (lt : α → α → Bool) (endpos : Nat) (heap : List α) (pos : Nat) :
    List α × Nat :=
  siftupFuel lt endpos endpos heap pos

/-- CPython `heapq._siftup(heap, pos)`. -/
def pySiftup (lt : α → α → Bool) (heap : List α) (pos : Nat) : List α :=
  let newitem := heap.getD pos default
  let hp := siftupGo lt heap.length heap pos
  siftdownGo lt pos newitem hp.1 hp.2

/-- CPython `heapq.heappop`: returns the popped item and the new heap,
or `none` on an empty heap (Python would raise `IndexError`; the source
only pops while the queue is non-empty). -/
def heappop (lt : α → α → Bool) : List α → Option (α × List α)
  | [] => none
  | x :: xs =>
    let lastelt := (x :: xs).getLast (List.cons_ne_nil x xs)
    let rest := (x :: xs).dropLast
    match rest with
    | [] => some (lastelt, [])
    | y :: ys => some (y, pySiftup lt ((y :: ys).set 0 lastelt) 0)

end Heap

/-- The graph: node list (Python `graph.nodes()`, in iteration order) and
adjacency lists carrying weights (`graph[v][u]["weight"]`, in neighbor
iteration order). -/
structure Graph where
  nodes : List String
  adj : String → List (String × ℚ)

/-- Neighbor iteration, Python `graph.neighbors(v)`. -/
def nbrs (g : Graph) (v : String) : List String := (g.adj v).map Prod.fst

/-- Edge weight lookup, Python `graph[v][u].get("weight", 1.0)`; the
source only evaluates it for `u` a neighbor of `v`, the default `0` for a
missing neighbor is never exercised by the loops. -/
def weight (g : Graph) (v u : String) : ℚ :=
  match (g.adj v).find? (fun pr => pr.1 == u) with
  | some pr => pr.2
  | none => 0

/-- A search-state key `(vertex, frozenset-of-collected-labels)`. -/
abbrev SKey := String × Finset String

/-- The visited table: insertion-ordered association list (a Python dict). -/
abbrev Visited := List (SKey × ℚ)

/-- Dict lookup `visited.get(k)`. -/
def vLook : Visited → SKey → Option ℚ
  | [], _ => none
  | e :: t, k => if e.1 = k then some e.2 else vLook t k

/-- Dict update `visited[k] = c`: existing keys keep their position, new
keys are appended (Python 3.7+ dict order). -/
def vSet : Visited → SKey → ℚ → Visited
  | [], k, c => [(k, c)]
  | e :: t, k, c => if e.1 = k then (k, c) :: t else e :: vSet t k c

/-- Python `new_cost < visited.get(ns, float('inf'))`. -/
def ltD (c : ℚ) (o : Option ℚ) : Bool :=
  match o with
  | none => true
  | some d => decide (c < d)

/-- Python `cost >= best_cost` where `best_cost` may be `float('inf')`. -/
def geBest (c : ℚ) (b : Option ℚ) : Bool :=
  match b with
  | none => false
  | some q => decide (q ≤ c)

/-- Python `cost < best_cost` where `best_cost` may be `float('inf')`. -/
def ltBest (c : ℚ) (b : Option ℚ) : Bool :=
  match b with
  | none => true
  | some q => decide (c < q)

/-- Python `0.0 >= visited.get(state, float('inf'))` (the pruned seed guard). -/
def zeroGe (o : Option ℚ) : Bool :=
  match o with
  | none => false
  | some c => decide (c ≤ 0)

/-- Python `cost > best_cost * 2 / 3` (`False` when `best_cost` is infinite). -/
def gt23 (c : ℚ) (b : Option ℚ) : Bool :=
  match b with
  | none => false
  | some q => decide (q * 2 / 3 < c)

/-- Python `new_cost <= best_cost * 2 / 3` (`True` when `best_cost` is infinite). -/
def le23 (c : ℚ) (b : Option ℚ) : Bool :=
  match b with
  | none => true
  | some q => decide (c ≤ q * 2 / 3)

/-- The mutable state of either main loop. -/
structure LoopState where
  best : Option ℚ
  bestPath : List String
  visited : Visited
  pq : List Entry

/-- Labels of a vertex as a set, Python `S.get(v, set())`. -/
def SFin (S : String → List String) (v : String) : Finset String :=
  (S v).toFinset

/-- The body of the neighbor relaxation loop of `basic`
(src/basic.py lines 129-136), one neighbor `u`. -/
def relaxBodyB (g : Graph) (P : Finset String) (S : String → List String)
    (e : Entry) (acc : LoopState) (u : String) : LoopState :=
  let w := weight g e.vertex u
  let newLabels := e.labels ∪ (SFin S u ∩ P)
  let ns : SKey := (u, newLabels)
  let newCost := e.cost + w
  if ltD newCost (vLook acc.visited ns) then
    { acc with visited := vSet acc.visited ns newCost,
               pq := heappush pyLt acc.pq ⟨newCost, u, newLabels, e.path ++ [u]⟩ }
  else acc

/-- The neighbor relaxation loop of `basic` (src/basic.py lines 129-136). -/
def relaxB (g : Graph) (P : Finset String) (S : String → List String)
    (e : Entry) (st : LoopState) : LoopState :=
  (nbrs g e.vertex).foldl (relaxBodyB g P S e) st

/-- One iteration of the main loop of `basic` (src/basic.py lines 117-136). -/
def stepB (g : Graph) (P : Finset String) (S : String → List String)
    (st : LoopState) : LoopState :=
  match heappop pyLt st.pq with
  | none => st
  | some (e, rest) =>
    if vLook st.visited (e.vertex, e.labels) ≠ some e.cost then { st with pq := rest }
    else if geBest e.cost st.best then { st with pq := rest }
    else if P ⊆ e.labels then
      if ltBest e.cost st.best then
        { st with pq := rest, best := some e.cost, bestPath := e.path }
      else { st with pq := rest }
    else relaxB g P S e { st with pq := rest }

/-- The seeding loop of `basic` (src/basic.py lines 111-115). -/
def seedBodyB (P : Finset String) (S : String → List String)
    (acc : LoopState) (v : String) : LoopState :=
  let start := SFin S v ∩ P
  { acc with visited := vSet acc.visited (v, start) 0,
             pq := heappush pyLt acc.pq ⟨0, v, start, [v]⟩ }

def initB (g : Graph) (P : Finset String) (S : String → List String) : LoopState :=
  g.nodes.foldl (seedBodyB P S) ⟨none, [], [], []⟩

/-- The fueled main loop shared by both engines; `none` = fuel exhausted. -/
def loopGo (step : LoopState → LoopState) :
    Nat → LoopState → Option (Option ℚ × List String)
  | 0, st => if st.pq = [] then some (st.best, st.bestPath) else none
  | fuel + 1, st =>
    if st.pq = [] then some (st.best, st.bestPath) else loopGo step fuel (step st)

/-- `basic(graph, P, S)` of src/basic.py, run on explicit fuel. -/
def basic (fuel : Nat) (g : Graph) (P : Finset String)
    (S : String → List String) : Option (Option ℚ × List String) :=
  loopGo (stepB g P S) fuel (initB g P S)

/-- The body of the neighbor relaxation loop of `pruned_dp`
(src/PrunedDP.py lines 103-112), one neighbor `u`. -/
def relaxBodyP (g : Graph) (P : Finset String) (S : String → List String)
    (e : Entry) (acc : LoopState) (u : String) : LoopState :=
  let w := weight g e.vertex u
  let newCost := e.cost + w
  if geBest newCost acc.best then acc
  else
    let newLabels := e.labels ∪ (SFin S u ∩ P)
    let ns : SKey := (u, newLabels)
    if ltD newCost (vLook acc.visited ns) then
      { acc with visited := vSet acc.visited ns newCost,
                 pq := heappush pyLt acc.pq ⟨newCost, u, newLabels, e.path ++ [u]⟩ }
    else acc

/-- The neighbor relaxation loop of `pruned_dp` (src/PrunedDP.py lines 103-112). -/
def relaxP (g : Graph) (P : Finset String) (S : String → List String)
    (e : Entry) (st : LoopState) : LoopState :=
  (nbrs g e.vertex).foldl (relaxBodyP g P S e) st

/-- The merge loop of `pruned_dp` (src/PrunedDP.py lines 114-126): combine
the expanding state with label-disjoint partial solutions at the same
vertex, iterating over a snapshot of the visited table. -/
def mergeBody (P : Finset String) (e : Entry) (acc : LoopState)
    (it : SKey × ℚ) : LoopState :=
  let remaining := P \ e.labels
  if it.1.1 = e.vertex ∧ it.1.2 ⊆ remaining ∧ it.1.2 ≠ ∅ then
    let newLabels := e.labels ∪ it.1.2
    let nc := e.cost + it.2
    let key : SKey := (e.vertex, newLabels)
    if le23 nc acc.best ∧ ltD nc (vLook acc.visited key) = true then
      { acc with visited := vSet acc.visited key nc,
                 pq := heappush pyLt acc.pq ⟨nc, e.vertex, newLabels, e.path⟩ }
    else acc
  else acc

def mergeF (P : Finset String) (e : Entry) (snapshot : Visited)
    (st : LoopState) : LoopState :=
  snapshot.foldl (mergeBody P e) st

/-- One iteration of the main loop of `pruned_dp` (src/PrunedDP.py lines 86-126). -/
def stepP (g : Graph) (P : Finset String) (S : String → List String)
    (st : LoopState) : LoopState :=
  match heappop pyLt st.pq with
  | none => st
  | some (e, rest) =>
    if vLook st.visited (e.vertex, e.labels) ≠ some e.cost then { st with pq := rest }
    else if geBest e.cost st.best then { st with pq := rest }
    else if P ⊆ e.labels then
      if ltBest e.cost st.best then
        { st with pq := rest, best := some e.cost, bestPath := e.path }
      else { st with pq := rest }
    else if gt23 e.cost st.best then { st with pq := rest }
    else
      let st1 := relaxP g P S e { st with pq := rest }
      mergeF P e st1.visited st1

/-- The seeding loop of `pruned_dp` (src/PrunedDP.py lines 78-84): one
seed per label of `S(v) ∩ P`. -/
def seedBodyP (v : String) (acc2 : LoopState) (lbl : String) : LoopState :=
  let state : SKey := (v, {lbl})
  if zeroGe (vLook acc2.visited state) then acc2
  else { acc2 with visited := vSet acc2.visited state 0,
                   pq := heappush pyLt acc2.pq ⟨0, v, {lbl}, [v]⟩ }

def seedsP (g : Graph) (P : Finset String) (S : String → List String) : LoopState :=
  g.nodes.foldl (fun acc v =>
    ((S v).filter (fun l => decide (l ∈ P))).foldl (seedBodyP v) acc)
    ⟨none, [], [], []⟩

/-- `pruned_dp(graph, P, S)` of src/PrunedDP.py, run on explicit fuel. -/
def pruned_dp (fuel : Nat) (g : Graph) (P : Finset String)
    (S : String → List String) : Option (Option ℚ × List String) :=
  loopGo (stepP g P S) fuel (seedsP g P S)

/-! ## Walks of the graph (the brute-force reference objects) -/

/-- Consecutive vertices are adjacent (an edge exists for each step). -/
def chainB (g : Graph) : List String → Bool
  | [] => true
  | [_] => true
  | u :: v :: rest => decide (v ∈ nbrs g u) && chainB g (v :: rest)

/-- Total edge weight of a walk. -/
def pathCost (g : Graph) : List String → ℚ
  | u :: v :: rest => weight g u v + pathCost g (v :: rest)
  | _ => 0

/-- Union of `S(v) ∩ P` over the walk's vertices. -/
def pathLabs (S : String → List String) (P : Finset String) :
    List String → Finset String
  | [] => ∅
  | v :: rest => (SFin S v ∩ P) ∪ pathLabs S P rest

/-- All vertices of the walk belong to the graph. -/
def InG (g : Graph) (p : List String) : Prop := ∀ v ∈ p, v ∈ g.nodes

/-- A label-covering walk: non-empty, consecutive vertices adjacent, in
the graph, collecting every label of `P`. -/
def CoverWalk (g : Graph) (P : Finset String) (S : String → List String)
    (p : List String) : Prop :=
  p ≠ [] ∧ chainB g p = true ∧ InG g p ∧ P ⊆ pathLabs S P p

/-- All edge weights are non-negative (spec §3 data model). -/
def NonNegW (g : Graph) : Prop := ∀ v, ∀ pr ∈ g.adj v, (0 : ℚ) ≤ pr.2

/-- All edge weights are strictly positive. -/
def PosW (g : Graph) : Prop := ∀ v, ∀ pr ∈ g.adj v, (0 : ℚ) < pr.2

/-- Neighbors of graph vertices are graph vertices (true of the Python
graph classes, whose `add_edge` registers both endpoints). -/
def ClosedG (g : Graph) : Prop :=
  ∀ v ∈ g.nodes, ∀ u ∈ nbrs g v, u ∈ g.nodes

/-- Undirectedness: adjacency and weight are symmetric (spec §3). -/
def SymmG (g : Graph) : Prop :=
  ∀ v u, (u ∈ nbrs g v ↔ v ∈ nbrs g u) ∧ weight g v u = weight g u v

/-! ## Permutation facts for the binary heap -/

section HeapPerm

open List

variable {α : Type}

lemma set_perm_cons :
    ∀ (l : List α) (i : Nat), i < l.length → ∀ b : α,
      l.set i b ~ b :: l.eraseIdx i := by
  intro l
  induction l with
  | nil => intro i h; simp at h
  | cons x t ih =>
    intro i hi b
    match i with
    | 0 => simp
    | m + 1 =>
      simp only [List.set_cons_succ, List.eraseIdx_cons_succ]
      have h1 : t.set m b ~ b :: t.eraseIdx m := ih m (by simpa using hi) b
      exact (h1.cons x).trans (List.Perm.swap b x _)

lemma getD_perm_cons (d : α) :
    ∀ (l : List α) (i : Nat), i < l.length →
      l ~ l.getD i d :: l.eraseIdx i := by
  intro l
  induction l with
  | nil => intro i h; simp at h
  | cons x t ih =>
    intro i hi
    match i with
    | 0 => simp
    | m + 1 =>
      simp only [List.getD_cons_succ, List.eraseIdx_cons_succ]
      have h1 : t ~ t.getD m d :: t.eraseIdx m := ih m (by simpa using hi)
      exact (h1.cons x).trans (List.Perm.swap _ x _)

lemma set_getD_id (d : α) :
    ∀ (l : List α) (i : Nat), i < l.length → l.set i (l.getD i d) = l := by
  intro l
  induction l with
  | nil => intro i h; simp at h
  | cons x t ih =>
    intro i hi
    match i with
    | 0 => simp
    | m + 1 =>
      simp only [List.getD_cons_succ, List.set_cons_succ]
      rw [ih m (by simpa using hi)]

lemma set_set_perm (d : α) :
    ∀ (l : List α) (i j : Nat) (a : α), i ≠ j → i < l.length → j < l.length →
      (l.set i (l.getD j d)).set j a ~ l.set i a := by
  intro l
  induction l with
  | nil => intro i j a _ _ h; simp at h
  | cons x t ih =>
    intro i j a hij hi hj
    match i, j with
    | 0, 0 => exact absurd rfl hij
    | 0, jj + 1 =>
      simp only [List.set_cons_zero, List.set_cons_succ, List.getD_cons_succ]
      have hjj : jj < t.length := by simpa using hj
      calc t.getD jj d :: t.set jj a
          ~ t.getD jj d :: (a :: t.eraseIdx jj) :=
            (set_perm_cons t jj hjj a).cons _
        _ ~ a :: t.getD jj d :: t.eraseIdx jj := List.Perm.swap a _ _
        _ ~ a :: t := (getD_perm_cons d t jj hjj).symm.cons a
    | ii + 1, 0 =>
      simp only [List.set_cons_zero, List.set_cons_succ, List.getD_cons_zero]
      have hii : ii < t.length := by simpa using hi
      calc a :: t.set ii x
          ~ a :: (x :: t.eraseIdx ii) := (set_perm_cons t ii hii x).cons _
        _ ~ x :: a :: t.eraseIdx ii := List.Perm.swap x a _
        _ ~ x :: t.set ii a := ((set_perm_cons t ii hii a).symm).cons x
    | ii + 1, jj + 1 =>
      simp only [List.set_cons_succ, List.getD_cons_succ]
      exact (ih ii jj a (by omega) (by simpa using hi) (by simpa using hj)).cons x

variable [Inhabited α] (lt : α → α → Bool)

lemma siftdownFuel_perm (s : Nat) (ni : α) :
    ∀ (fuel : Nat) (heap : List α) (pos : Nat), pos < heap.length →
      siftdownFuel lt s ni fuel heap pos ~ heap.set pos ni := by
  intro fuel
  induction fuel with
  | zero => intro heap pos _; exact List.Perm.refl _
  | succ fuel ih =>
    intro heap pos hlen
    unfold siftdownFuel
    by_cases h : s < pos
    · rw [if_pos h]
      dsimp only
      by_cases hlt : lt ni (heap.getD ((pos - 1) / 2) default) = true
      · rw [if_pos hlt]
        have hp2len : (pos - 1) / 2
            < (heap.set pos (heap.getD ((pos - 1) / 2) default)).length := by
          simp only [List.length_set]
          have := Nat.div_le_self (pos - 1) 2
          omega
        have h1 := ih (heap.set pos (heap.getD ((pos - 1) / 2) default))
          ((pos - 1) / 2) hp2len
        refine h1.trans ?_
        refine set_set_perm default heap pos ((pos - 1) / 2) ni ?_ hlen ?_
        · have := Nat.div_le_self (pos - 1) 2
          omega
        · have := Nat.div_le_self (pos - 1) 2
          omega
      · rw [if_neg hlt]
    · rw [if_neg h]

lemma siftdownGo_perm (s : Nat) (ni : α) :
    ∀ (heap : List α) (pos : Nat), pos < heap.length →
      siftdownGo lt s ni heap pos ~ heap.set pos ni := by
  intro heap pos hlen
  exact siftdownFuel_perm lt s ni (pos + 1) heap pos hlen

lemma heappush_perm (l : List α) (e : α) : heappush lt l e ~ e :: l := by
  unfold heappush
  have hlen : l.length < (l ++ [e]).length := by simp
  have h1 := siftdownGo_perm lt 0 e (l ++ [e]) l.length hlen
  refine h1.trans ?_
  have he : (l ++ [e]).set l.length e = l ++ [e] := by
    have hg : (l ++ [e]).getD l.length default = e := by
      simp [List.getD_eq_getElem?_getD]
    calc (l ++ [e]).set l.length e
        = (l ++ [e]).set l.length ((l ++ [e]).getD l.length default) := by rw [hg]
      _ = l ++ [e] := set_getD_id default (l ++ [e]) l.length (by simp)
  rw [he]
  exact List.perm_append_singleton e l

lemma siftupFuel_spec (endpos : Nat) :
    ∀ (fuel : Nat) (heap : List α) (pos : Nat),
      pos < endpos → endpos ≤ heap.length →
      (siftupFuel lt endpos fuel heap pos).1.length = heap.length ∧
      (siftupFuel lt endpos fuel heap pos).2 < endpos ∧
      ∀ b : α, (siftupFuel lt endpos fuel heap pos).1.set
          (siftupFuel lt endpos fuel heap pos).2 b
        ~ heap.set pos b := by
  intro fuel
  induction fuel with
  | zero =>
    intro heap pos hpos _
    exact ⟨rfl, hpos, fun b => List.Perm.refl _⟩
  | succ fuel ih =>
    intro heap pos hpos hend
    unfold siftupFuel
    by_cases h : 2 * pos + 1 < endpos
    · rw [if_pos h]
      dsimp only
      set c := if 2 * pos + 1 + 1 < endpos ∧
          ¬ lt (heap.getD (2 * pos + 1) default) (heap.getD (2 * pos + 1 + 1) default)
        then 2 * pos + 1 + 1 else 2 * pos + 1 with hc
      have hcb : 2 * pos + 1 ≤ c ∧ c < endpos := by
        rw [hc]; split <;> (constructor <;> omega)
      have hclen : c < heap.length := lt_of_lt_of_le hcb.2 hend
      have hposlen : pos < heap.length := lt_of_lt_of_le hpos hend
      have hrec := ih (heap.set pos (heap.getD c default)) c
        hcb.2 (by simpa using hend)
      refine ⟨by simpa using hrec.1, hrec.2.1, fun b => ?_⟩
      refine (hrec.2.2 b).trans ?_
      exact set_set_perm default heap pos c b (by omega) hposlen hclen
    · rw [if_neg h]
      exact ⟨rfl, hpos, fun b => List.Perm.refl _⟩

lemma siftupGo_spec (endpos : Nat) (heap : List α) (pos : Nat)
    (hpos : pos < endpos) (hend : endpos ≤ heap.length) :
    (siftupGo lt endpos heap pos).1.length = heap.length ∧
    (siftupGo lt endpos heap pos).2 < endpos ∧
    ∀ b : α, (siftupGo lt endpos heap pos).1.set (siftupGo lt endpos heap pos).2 b
      ~ heap.set pos b :=
  siftupFuel_spec lt endpos endpos heap pos hpos hend

lemma pySiftup_perm (heap : List α) (pos : Nat) (h : pos < heap.length) :
    pySiftup lt heap pos ~ heap := by
  unfold pySiftup
  have hs := siftupGo_spec lt heap.length heap pos h le_rfl
  have h2 : (siftupGo lt heap.length heap pos).2 <
      (siftupGo lt heap.length heap pos).1.length := by
    rw [hs.1]; exact hs.2.1
  have h1 := siftdownGo_perm lt pos (heap.getD pos default) _ _ h2
  refine h1.trans ?_
  refine (hs.2.2 (heap.getD pos default)).trans ?_
  rw [set_getD_id default heap pos h]

lemma heappop_perm (l l2 : List α) (e : α)
    (h : heappop lt l = some (e, l2)) : l ~ e :: l2 := by
  match l with
  | [] => simp [heappop] at h
  | x :: xs =>
    unfold heappop at h
    simp only at h
    match hrest : (x :: xs).dropLast with
    | [] =>
      rw [hrest] at h
      simp only [Option.some.injEq, Prod.mk.injEq] at h
      obtain ⟨he, hl2⟩ := h
      have hxs : xs = [] := by
        have hl := congrArg List.length hrest
        simp only [List.length_dropLast, List.length_cons, List.length_nil] at hl
        exact List.eq_nil_of_length_eq_zero (by omega)
      subst hxs
      have hx : (x :: ([] : List α)).getLast (List.cons_ne_nil x []) = x := rfl
      rw [hx] at he
      rw [← he, ← hl2]
    | y :: ys =>
      rw [hrest] at h
      simp only [Option.some.injEq, Prod.mk.injEq] at h
      obtain ⟨he, hl2⟩ := h
      have hlast := List.dropLast_append_getLast (List.cons_ne_nil x xs)
      set last := (x :: xs).getLast (List.cons_ne_nil x xs) with hlastdef
      have hxl : x :: xs = (y :: ys) ++ [last] := by rw [← hrest, hlast]
      have hperm : pySiftup lt ((y :: ys).set 0 last) 0 ~ last :: ys := by
        have := pySiftup_perm lt ((y :: ys).set 0 last) 0 (by simp)
        simpa using this
      subst hl2 he
      calc x :: xs = (y :: ys) ++ [last] := hxl
        _ ~ last :: (y :: ys) := List.perm_append_singleton _ _
        _ ~ y :: last :: ys := List.Perm.swap y last ys
        _ ~ y :: pySiftup lt ((y :: ys).set 0 last) 0 := (hperm.symm).cons y

end HeapPerm

/-! ## Visited-table lemmas -/

lemma vLook_vSet_self (t : Visited) (k : SKey) (c : ℚ) :
    vLook (vSet t k c) k = some c := by
  induction t with
  | nil => simp [vSet, vLook]
  | cons e t ih =>
    by_cases h : e.1 = k
    · simp [vSet, h, vLook]
    · simp [vSet, h, vLook, ih]

lemma vLook_vSet_ne (t : Visited) (k k2 : SKey) (c : ℚ) (h : k2 ≠ k) :
    vLook (vSet t k c) k2 = vLook t k2 := by
  have h1 : ¬ (k = k2) := fun hh => h hh.symm
  induction t with
  | nil => simp [vSet, vLook, h1]
  | cons e t ih =>
    by_cases he : e.1 = k
    · have h2 : ¬ (e.1 = k2) := by rw [he]; exact h1
      simp [vSet, he, vLook, h1, h2]
    · by_cases he2 : e.1 = k2
      · simp [vSet, he, vLook, he2, h]
      · simp [vSet, he, vLook, he2, ih]

/-- The later table `t2` dominates `t`: every recorded state is still
recorded, at a cost that has not increased. -/
def vLE (t2 t : Visited) : Prop :=
  ∀ k c, vLook t k = some c → ∃ c2, vLook t2 k = some c2 ∧ c2 ≤ c

lemma vLE_refl (t : Visited) : vLE t t := fun _ c h => ⟨c, h, le_rfl⟩

lemma vLE_trans {t3 t2 t1 : Visited} (h32 : vLE t3 t2) (h21 : vLE t2 t1) :
    vLE t3 t1 := by
  intro k c h
  obtain ⟨c2, h2, hle2⟩ := h21 k c h
  obtain ⟨c3, h3, hle3⟩ := h32 k c2 h2
  exact ⟨c3, h3, le_trans hle3 hle2⟩

lemma vLE_set {t : Visited} {k : SKey} {c : ℚ}
    (hle : ∀ d, vLook t k = some d → c ≤ d) : vLE (vSet t k c) t := by
  intro k2 d hd
  by_cases h : k2 = k
  · subst h; exact ⟨c, vLook_vSet_self .., hle d hd⟩
  · exact ⟨d, by rw [vLook_vSet_ne t k k2 c h]; exact hd, le_rfl⟩

lemma vLE_set_of_ltD {t : Visited} {k : SKey} {c : ℚ}
    (h : ltD c (vLook t k) = true) : vLE (vSet t k c) t := by
  refine vLE_set (fun d hd => ?_)
  rw [hd] at h
  simp only [ltD, decide_eq_true_eq] at h
  exact le_of_lt h

/-! ## Generic fold and loop lemmas -/

lemma foldl_rel {β : Type} (R : LoopState → LoopState → Prop)
    (htrans : ∀ {a b c}, R a b → R b c → R a c)
    (hrefl : ∀ a, R a a)
    (f : LoopState → β → LoopState) (hstep : ∀ a x, R (f a x) a) :
    ∀ (l : List β) (st : LoopState), R (l.foldl f st) st := by
  intro l
  induction l with
  | nil => intro st; exact hrefl st
  | cons x xs ih =>
    intro st
    simp only [List.foldl_cons]
    exact htrans (ih (f st x)) (hstep st x)

lemma loopGo_reach (step : LoopState → LoopState) (Inv : LoopState → Prop)
    (hstep : ∀ st, Inv st → Inv (step st)) :
    ∀ (fuel : Nat) (st : LoopState) (r : Option ℚ × List String),
      Inv st → loopGo step fuel st = some r →
      ∃ st2, Inv st2 ∧ st2.pq = [] ∧ st2.best = r.1 ∧ st2.bestPath = r.2 := by
  intro fuel
  induction fuel with
  | zero =>
    intro st r hInv hrun
    simp only [loopGo] at hrun
    by_cases h : st.pq = []
    · rw [if_pos h] at hrun
      have h2 : (st.best, st.bestPath) = r := by injection hrun
      exact ⟨st, hInv, h, by rw [← h2], by rw [← h2]⟩
    · rw [if_neg h] at hrun; exact absurd hrun (by simp)
  | succ n ih =>
    intro st r hInv hrun
    simp only [loopGo] at hrun
    by_cases h : st.pq = []
    · rw [if_pos h] at hrun
      have h2 : (st.best, st.bestPath) = r := by injection hrun
      exact ⟨st, hInv, h, by rw [← h2], by rw [← h2]⟩
    · rw [if_neg h] at hrun
      exact ih (step st) r (hstep st hInv) hrun

lemma mem_heappush {l : List Entry} {e x : Entry} :
    x ∈ heappush pyLt l e ↔ x = e ∨ x ∈ l := by
  rw [(heappush_perm pyLt l e).mem_iff]
  simp

/-- Descent relation along the body of every inner fold: the visited table
only improves, best is untouched, and no frontier entry is removed. -/
def FoldLE (a b : LoopState) : Prop :=
  vLE a.visited b.visited ∧ a.best = b.best ∧ a.bestPath = b.bestPath ∧
    ∀ x, x ∈ b.pq → x ∈ a.pq

lemma FoldLE_refl (a : LoopState) : FoldLE a a :=
  ⟨vLE_refl _, rfl, rfl, fun _ h => h⟩

lemma FoldLE_trans {a b c : LoopState} (hab : FoldLE a b) (hbc : FoldLE b c) :
    FoldLE a c :=
  ⟨vLE_trans hab.1 hbc.1, hab.2.1.trans hbc.2.1, hab.2.2.1.trans hbc.2.2.1,
    fun x hx => hab.2.2.2 x (hbc.2.2.2 x hx)⟩

lemma relaxB_le (g : Graph) (P : Finset String) (S : String → List String)
    (e : Entry) (st : LoopState) : FoldLE (relaxB g P S e st) st := by
  refine foldl_rel FoldLE (fun hab hbc => FoldLE_trans hab hbc) FoldLE_refl _
    (fun a u => ?_) (nbrs g e.vertex) st
  unfold relaxBodyB
  dsimp only
  split
  · exact ⟨vLE_set_of_ltD (by assumption), rfl, rfl,
      fun x hx => mem_heappush.mpr (Or.inr hx)⟩
  · exact FoldLE_refl a

lemma relaxP_le (g : Graph) (P : Finset String) (S : String → List String)
    (e : Entry) (st : LoopState) : FoldLE (relaxP g P S e st) st := by
  refine foldl_rel FoldLE (fun hab hbc => FoldLE_trans hab hbc) FoldLE_refl _
    (fun a u => ?_) (nbrs g e.vertex) st
  unfold relaxBodyP
  dsimp only
  split
  · exact FoldLE_refl a
  · split
    · exact ⟨vLE_set_of_ltD (by assumption), rfl, rfl,
        fun x hx => mem_heappush.mpr (Or.inr hx)⟩
    · exact FoldLE_refl a

lemma mergeF_le (P : Finset String) (e : Entry) (snapshot : Visited)
    (st : LoopState) : FoldLE (mergeF P e snapshot st) st := by
  refine foldl_rel FoldLE (fun hab hbc => FoldLE_trans hab hbc) FoldLE_refl _
    (fun a it => ?_) snapshot st
  unfold mergeBody
  dsimp only
  split
  · split
    · rename_i hg
      exact ⟨vLE_set_of_ltD hg.2, rfl, rfl,
        fun x hx => mem_heappush.mpr (Or.inr hx)⟩
    · exact FoldLE_refl a
  · exact FoldLE_refl a

/-- Within one `basic` loop iteration the visited table never worsens. -/
lemma stepB_visited_le (g : Graph) (P : Finset String)
    (S : String → List String) (st : LoopState) :
    vLE (stepB g P S st).visited st.visited := by
  unfold stepB
  match hpop : heappop pyLt st.pq with
  | none => exact vLE_refl _
  | some (e, rest) =>
    dsimp only
    split
    · exact vLE_refl _
    · split
      · exact vLE_refl _
      · split
        · split
          · exact vLE_refl _
          · exact vLE_refl _
        · exact (relaxB_le g P S e _).1

/-- Within one `pruned_dp` loop iteration the visited table never worsens. -/
lemma stepP_visited_le (g : Graph) (P : Finset String)
    (S : String → List String) (st : LoopState) :
    vLE (stepP g P S st).visited st.visited := by
  unfold stepP
  match hpop : heappop pyLt st.pq with
  | none => exact vLE_refl _
  | some (e, rest) =>
    dsimp only
    split
    · exact vLE_refl _
    · split
      · exact vLE_refl _
      · split
        · split
          · exact vLE_refl _
          · exact vLE_refl _
        · split
          · exact vLE_refl _
          · exact vLE_trans (mergeF_le P e _ _).1 (relaxP_le g P S e _).1

/-! ## Walk lemmas -/

lemma weight_nonneg {g : Graph} (hNN : NonNegW g) (v u : String) :
    0 ≤ weight g v u := by
  unfold weight
  match hf : (g.adj v).find? (fun pr => pr.1 == u) with
  | none => rw [hf]
  | some pr =>
    rw [hf]
    exact hNN v pr (List.mem_of_find?_eq_some hf)

lemma chainB_concat {g : Graph} :
    ∀ (p : List String) (v u : String), chainB g p = true →
      p.getLast? = some v → u ∈ nbrs g v →
      chainB g (p ++ [u]) = true := by
  intro p
  induction p with
  | nil => intro v u _ h; simp at h
  | cons x t ih =>
    intro v u hch hlast hmem
    match t with
    | [] =>
      simp only [List.getLast?_singleton, Option.some.injEq] at hlast
      subst hlast
      simp [chainB, hmem]
    | y :: t2 =>
      have hch2 : chainB g (y :: t2) = true := by
        simp only [chainB, Bool.and_eq_true] at hch
        exact hch.2
      have hadj : decide (y ∈ nbrs g x) = true := by
        simp only [chainB, Bool.and_eq_true] at hch
        exact hch.1
      have hlast2 : (y :: t2).getLast? = some v := by
        rw [List.getLast?_cons_cons] at hlast
        exact hlast
      have := ih v u hch2 hlast2 hmem
      simp only [List.cons_append]
      simp only [chainB, Bool.and_eq_true]
      constructor
      · exact hadj
      · simpa using this

lemma pathCost_concat {g : Graph} :
    ∀ (p : List String) (v u : String), p.getLast? = some v →
      pathCost g (p ++ [u]) = pathCost g p + weight g v u := by
  intro p
  induction p with
  | nil => intro v u h; simp at h
  | cons x t ih =>
    intro v u hlast
    match t with
    | [] =>
      simp only [List.getLast?_singleton, Option.some.injEq] at hlast
      subst hlast
      simp [pathCost]
    | y :: t2 =>
      have hlast2 : (y :: t2).getLast? = some v := by
        rw [List.getLast?_cons_cons] at hlast
        exact hlast
      have := ih v u hlast2
      simp only [List.cons_append, List.append_eq, pathCost] at this ⊢
      rw [this]
      ring

lemma pathLabs_concat (S : String → List String) (P : Finset String) :
    ∀ (p : List String) (u : String),
      pathLabs S P (p ++ [u]) = pathLabs S P p ∪ (SFin S u ∩ P) := by
  intro p
  induction p with
  | nil => intro u; simp [pathLabs]
  | cons x t ih =>
    intro u
    simp only [List.cons_append, List.append_eq, pathLabs, ih]
    rw [Finset.union_assoc]

lemma pathLabs_subset (S : String → List String) (P : Finset String) :
    ∀ p : List String, pathLabs S P p ⊆ P := by
  intro p
  induction p with
  | nil => simp [pathLabs]
  | cons x t ih =>
    simp only [pathLabs]
    exact Finset.union_subset (Finset.inter_subset_right) ih

lemma pathCost_nonneg {g : Graph} (hNN : NonNegW g) :
    ∀ p : List String, 0 ≤ pathCost g p := by
  intro p
  induction p with
  | nil => simp [pathCost]
  | cons x t ih =>
    match t with
    | [] => simp [pathCost]
    | y :: t2 =>
      simp only [pathCost]
      have := weight_nonneg hNN x y
      have h2 : 0 ≤ pathCost g (y :: t2) := ih
      positivity

/-! ## Case principles for the loop bodies -/

lemma stepB_cases (g : Graph) (P : Finset String) (S : String → List String)
    (st : LoopState) (C : LoopState → Prop)
    (hnone : heappop pyLt st.pq = none → C st)
    (hstale : ∀ e rest, heappop pyLt st.pq = some (e, rest) →
      vLook st.visited (e.vertex, e.labels) ≠ some e.cost → C { st with pq := rest })
    (hge : ∀ e rest, heappop pyLt st.pq = some (e, rest) →
      vLook st.visited (e.vertex, e.labels) = some e.cost →
      geBest e.cost st.best = true → C { st with pq := rest })
    (hcov : ∀ e rest, heappop pyLt st.pq = some (e, rest) →
      vLook st.visited (e.vertex, e.labels) = some e.cost →
      geBest e.cost st.best = false → P ⊆ e.labels → ltBest e.cost st.best = true →
      C { st with pq := rest, best := some e.cost, bestPath := e.path })
    (hcov2 : ∀ e rest, heappop pyLt st.pq = some (e, rest) →
      vLook st.visited (e.vertex, e.labels) = some e.cost →
      geBest e.cost st.best = false → P ⊆ e.labels → ltBest e.cost st.best = false →
      C { st with pq := rest })
    (hexp : ∀ e rest, heappop pyLt st.pq = some (e, rest) →
      vLook st.visited (e.vertex, e.labels) = some e.cost →
      geBest e.cost st.best = false → ¬ P ⊆ e.labels →
      C (relaxB g P S e { st with pq := rest })) :
    C (stepB g P S st) := by
  unfold stepB
  match hpop : heappop pyLt st.pq with
  | none => exact hnone hpop
  | some (e, rest) =>
    dsimp only
    by_cases h1 : vLook st.visited (e.vertex, e.labels) ≠ some e.cost
    · rw [if_pos h1]; exact hstale e rest hpop h1
    · rw [if_neg h1]
      rw [not_not] at h1
      by_cases h2 : geBest e.cost st.best = true
      · rw [if_pos h2]; exact hge e rest hpop h1 h2
      · rw [if_neg h2]
        rw [Bool.not_eq_true] at h2
        by_cases h3 : P ⊆ e.labels
        · rw [if_pos h3]
          by_cases h4 : ltBest e.cost st.best = true
          · rw [if_pos h4]; exact hcov e rest hpop h1 h2 h3 h4
          · rw [if_neg h4]
            rw [Bool.not_eq_true] at h4
            exact hcov2 e rest hpop h1 h2 h3 h4
        · rw [if_neg h3]; exact hexp e rest hpop h1 h2 h3

lemma stepP_cases (g : Graph) (P : Finset String) (S : String → List String)
    (st : LoopState) (C : LoopState → Prop)
    (hnone : heappop pyLt st.pq = none → C st)
    (hstale : ∀ e rest, heappop pyLt st.pq = some (e, rest) →
      vLook st.visited (e.vertex, e.labels) ≠ some e.cost → C { st with pq := rest })
    (hge : ∀ e rest, heappop pyLt st.pq = some (e, rest) →
      vLook st.visited (e.vertex, e.labels) = some e.cost →
      geBest e.cost st.best = true → C { st with pq := rest })
    (hcov : ∀ e rest, heappop pyLt st.pq = some (e, rest) →
      vLook st.visited (e.vertex, e.labels) = some e.cost →
      geBest e.cost st.best = false → P ⊆ e.labels → ltBest e.cost st.best = true →
      C { st with pq := rest, best := some e.cost, bestPath := e.path })
    (hcov2 : ∀ e rest, heappop pyLt st.pq = some (e, rest) →
      vLook st.visited (e.vertex, e.labels) = some e.cost →
      geBest e.cost st.best = false → P ⊆ e.labels → ltBest e.cost st.best = false →
      C { st with pq := rest })
    (hpr : ∀ e rest, heappop pyLt st.pq = some (e, rest) →
      vLook st.visited (e.vertex, e.labels) = some e.cost →
      geBest e.cost st.best = false → ¬ P ⊆ e.labels → gt23 e.cost st.best = true →
      C { st with pq := rest })
    (hexp : ∀ e rest, heappop pyLt st.pq = some (e, rest) →
      vLook st.visited (e.vertex, e.labels) = some e.cost →
      geBest e.cost st.best = false → ¬ P ⊆ e.labels → gt23 e.cost st.best = false →
      C (mergeF P e (relaxP g P S e { st with pq := rest }).visited
          (relaxP g P S e { st with pq := rest }))) :
    C (stepP g P S st) := by
  unfold stepP
  match hpop : heappop pyLt st.pq with
  | none => exact hnone hpop
  | some (e, rest) =>
    dsimp only
    by_cases h1 : vLook st.visited (e.vertex, e.labels) ≠ some e.cost
    · rw [if_pos h1]; exact hstale e rest hpop h1
    · rw [if_neg h1]
      rw [not_not] at h1
      by_cases h2 : geBest e.cost st.best = true
      · rw [if_pos h2]; exact hge e rest hpop h1 h2
      · rw [if_neg h2]
        rw [Bool.not_eq_true] at h2
        by_cases h3 : P ⊆ e.labels
        · rw [if_pos h3]
          by_cases h4 : ltBest e.cost st.best = true
          · rw [if_pos h4]; exact hcov e rest hpop h1 h2 h3 h4
          · rw [if_neg h4]
            rw [Bool.not_eq_true] at h4
            exact hcov2 e rest hpop h1 h2 h3 h4
        · rw [if_neg h3]
          by_cases h5 : gt23 e.cost st.best = true
          · rw [if_pos h5]; exact hpr e rest hpop h1 h2 h3 h5
          · rw [if_neg h5]
            rw [Bool.not_eq_true] at h5
            exact hexp e rest hpop h1 h2 h3 h5

/-! ## Core invariant of `basic`: every entry carries its own walk -/

/-- A `basic` frontier entry is internally consistent: its path is a
non-empty adjacency chain ending at its vertex, whose total weight is the
entry cost and whose collected query labels are the entry label set. -/
def EntryOK (g : Graph) (P : Finset String) (S : String → List String)
    (e : Entry) : Prop :=
  e.path ≠ [] ∧ chainB g e.path = true ∧ e.path.getLast? = some e.vertex ∧
    pathCost g e.path = e.cost ∧ pathLabs S P e.path = e.labels

lemma entryOK_seed (g : Graph) (P : Finset String) (S : String → List String)
    (v : String) : EntryOK g P S ⟨0, v, SFin S v ∩ P, [v]⟩ := by
  refine ⟨by simp, by simp [chainB], by simp, by simp [pathCost], ?_⟩
  simp [pathLabs]

lemma entryOK_relax {g : Graph} {P : Finset String} {S : String → List String}
    {e : Entry} (he : EntryOK g P S e) {u : String} (hu : u ∈ nbrs g e.vertex) :
    EntryOK g P S ⟨e.cost + weight g e.vertex u, u,
      e.labels ∪ (SFin S u ∩ P), e.path ++ [u]⟩ := by
  obtain ⟨h1, h2, h3, h4, h5⟩ := he
  refine ⟨by simp, chainB_concat e.path e.vertex u h2 h3 hu,
    by simp [List.getLast?_concat], ?_, ?_⟩
  · rw [pathCost_concat e.path e.vertex u h3, h4]
  · rw [pathLabs_concat, h5]

lemma foldl_preserves {β : Type} (Φ : LoopState → Prop)
    (f : LoopState → β → LoopState) :
    ∀ (l : List β), (∀ acc x, x ∈ l → Φ acc → Φ (f acc x)) →
      ∀ st : LoopState, Φ st → Φ (l.foldl f st) := by
  intro l
  induction l with
  | nil => intro _ st h; simpa using h
  | cons x xs ih =>
    intro hstep st h
    simp only [List.foldl_cons]
    exact ih (fun acc y hy hacc => hstep acc y (List.mem_cons_of_mem x hy) hacc)
      (f st x) (hstep st x (List.mem_cons_self x xs) h)

lemma relaxB_entries {g : Graph} {P : Finset String} {S : String → List String}
    {e : Entry} (he : EntryOK g P S e) (st : LoopState)
    (hE : ∀ x ∈ st.pq, EntryOK g P S x) :
    ∀ x ∈ (relaxB g P S e st).pq, EntryOK g P S x := by
  unfold relaxB
  refine foldl_preserves (fun acc => ∀ x ∈ acc.pq, EntryOK g P S x) _
    (nbrs g e.vertex) (fun acc u hu hacc => ?_) st hE
  unfold relaxBodyB
  dsimp only
  split
  · intro x hx
    rcases mem_heappush.mp hx with h | h
    · subst h; exact entryOK_relax he hu
    · exact hacc x h
  · exact hacc

/-- Core invariant of the `basic` loop: all frontier entries are
internally consistent, and the best solution, once set, is a covering
walk at exactly its cost. -/
structure BInv (g : Graph) (P : Finset String) (S : String → List String)
    (st : LoopState) : Prop where
  entries : ∀ e ∈ st.pq, EntryOK g P S e
  bestOK : (st.best = none ∧ st.bestPath = []) ∨
    (∃ c : ℚ, st.best = some c ∧ st.bestPath ≠ [] ∧
      chainB g st.bestPath = true ∧ pathCost g st.bestPath = c ∧
      pathLabs S P st.bestPath = P)

lemma stepB_BInv (g : Graph) (P : Finset String) (S : String → List String)
    (st : LoopState) (hB : BInv g P S st) : BInv g P S (stepB g P S st) := by
  refine stepB_cases g P S st (BInv g P S) ?_ ?_ ?_ ?_ ?_ ?_
  · intro _; exact hB
  · intro e rest hpop _
    have hperm := heappop_perm pyLt st.pq rest e hpop
    exact ⟨fun x hx => hB.entries x (hperm.mem_iff.mpr (List.mem_cons_of_mem e hx)),
      hB.bestOK⟩
  · intro e rest hpop _ _
    have hperm := heappop_perm pyLt st.pq rest e hpop
    exact ⟨fun x hx => hB.entries x (hperm.mem_iff.mpr (List.mem_cons_of_mem e hx)),
      hB.bestOK⟩
  · intro e rest hpop _ _ hcov _
    have hperm := heappop_perm pyLt st.pq rest e hpop
    have heOK : EntryOK g P S e :=
      hB.entries e (hperm.mem_iff.mpr (List.mem_cons_self e rest))
    refine ⟨fun x hx => hB.entries x (hperm.mem_iff.mpr (List.mem_cons_of_mem e hx)),
      Or.inr ⟨e.cost, rfl, heOK.1, heOK.2.1, heOK.2.2.2.1, ?_⟩⟩
    have hsub : pathLabs S P e.path ⊆ P := pathLabs_subset S P e.path
    rw [heOK.2.2.2.2] at hsub ⊢
    exact Finset.Subset.antisymm hsub hcov
  · intro e rest hpop _ _ _ _
    have hperm := heappop_perm pyLt st.pq rest e hpop
    exact ⟨fun x hx => hB.entries x (hperm.mem_iff.mpr (List.mem_cons_of_mem e hx)),
      hB.bestOK⟩
  · intro e rest hpop _ _ _
    have hperm := heappop_perm pyLt st.pq rest e hpop
    have heOK : EntryOK g P S e :=
      hB.entries e (hperm.mem_iff.mpr (List.mem_cons_self e rest))
    have hrest : ∀ x ∈ rest, EntryOK g P S x :=
      fun x hx => hB.entries x (hperm.mem_iff.mpr (List.mem_cons_of_mem e hx))
    have hle := relaxB_le g P S e { st with pq := rest }
    refine ⟨relaxB_entries heOK _ hrest, ?_⟩
    rw [hle.2.1, hle.2.2.1]
    exact hB.bestOK

lemma initB_BInv (g : Graph) (P : Finset String) (S : String → List String) :
    BInv g P S (initB g P S) := by
  unfold initB
  refine foldl_preserves (BInv g P S) _ g.nodes (fun acc v _ hacc => ?_)
    ⟨none, [], [], []⟩ ⟨by simp, Or.inl ⟨rfl, rfl⟩⟩
  unfold seedBodyB
  refine ⟨fun x hx => ?_, hacc.bestOK⟩
  rcases mem_heappush.mp hx with h | h
  · subst h; exact entryOK_seed g P S v
  · exact hacc.entries x h

lemma basic_final (fuel : Nat) (g : Graph) (P : Finset String)
    (S : String → List String) (r : Option ℚ × List String)
    (hrun : basic fuel g P S = some r) :
    ∃ st2, BInv g P S st2 ∧ st2.pq = [] ∧ st2.best = r.1 ∧ st2.bestPath = r.2 :=
  loopGo_reach (stepB g P S) (BInv g P S) (stepB_BInv g P S) fuel
    (initB g P S) r (initB_BInv g P S) hrun

/-! ## Non-negativity invariant (spec §8, claim C7) -/

lemma vLook_mem : ∀ (t : Visited) (k : SKey) (c : ℚ),
    vLook t k = some c → (k, c) ∈ t := by
  intro t
  induction t with
  | nil => intro k c h; simp [vLook] at h
  | cons e t ih =>
    intro k c h
    simp only [vLook] at h
    by_cases he : e.1 = k
    · rw [if_pos he] at h
      simp only [Option.some.injEq] at h
      have heq : e = (k, c) := Prod.ext he h
      rw [← heq]
      exact List.mem_cons_self e t
    · rw [if_neg he] at h
      exact List.mem_cons_of_mem e (ih k c h)

lemma vSet_mem : ∀ (t : Visited) (k : SKey) (c : ℚ) (it : SKey × ℚ),
    it ∈ vSet t k c → it = (k, c) ∨ it ∈ t := by
  intro t
  induction t with
  | nil => intro k c it h; simp [vSet] at h; exact Or.inl h
  | cons e t ih =>
    intro k c it h
    simp only [vSet] at h
    by_cases he : e.1 = k
    · rw [if_pos he] at h
      rcases List.mem_cons.mp h with h2 | h2
      · exact Or.inl h2
      · exact Or.inr (List.mem_cons_of_mem e h2)
    · rw [if_neg he] at h
      rcases List.mem_cons.mp h with h2 | h2
      · exact Or.inr (h2 ▸ List.mem_cons_self e t)
      · rcases ih k c it h2 with h3 | h3
        · exact Or.inl h3
        · exact Or.inr (List.mem_cons_of_mem e h3)

/-- All costs tracked by the state are non-negative. -/
structure NNInv (st : LoopState) : Prop where
  pqNN : ∀ x ∈ st.pq, 0 ≤ x.cost
  visNN : ∀ it ∈ st.visited, 0 ≤ it.2
  bestNN : ∀ q, st.best = some q → 0 ≤ q

lemma relaxB_NN {g : Graph} {P : Finset String} {S : String → List String}
    {e : Entry} (hNN : NonNegW g) (he : 0 ≤ e.cost) (st : LoopState)
    (h : NNInv st) : NNInv (relaxB g P S e st) := by
  unfold relaxB
  refine foldl_preserves NNInv _ (nbrs g e.vertex)
    (fun acc u _ hacc => ?_) st h
  unfold relaxBodyB
  dsimp only
  split
  · refine ⟨fun x hx => ?_, fun it hit => ?_, hacc.bestNN⟩
    · rcases mem_heappush.mp hx with h2 | h2
      · subst h2
        have := weight_nonneg hNN e.vertex u
        simp only
        positivity
      · exact hacc.pqNN x h2
    · rcases vSet_mem _ _ _ it hit with h2 | h2
      · subst h2
        have := weight_nonneg hNN e.vertex u
        simp only
        positivity
      · exact hacc.visNN it h2
  · exact hacc

lemma relaxP_NN {g : Graph} {P : Finset String} {S : String → List String}
    {e : Entry} (hNN : NonNegW g) (he : 0 ≤ e.cost) (st : LoopState)
    (h : NNInv st) : NNInv (relaxP g P S e st) := by
  unfold relaxP
  refine foldl_preserves NNInv _ (nbrs g e.vertex)
    (fun acc u _ hacc => ?_) st h
  unfold relaxBodyP
  dsimp only
  split
  · exact hacc
  · split
    · refine ⟨fun x hx => ?_, fun it hit => ?_, hacc.bestNN⟩
      · rcases mem_heappush.mp hx with h2 | h2
        · subst h2
          have := weight_nonneg hNN e.vertex u
          simp only
          positivity
        · exact hacc.pqNN x h2
      · rcases vSet_mem _ _ _ it hit with h2 | h2
        · subst h2
          have := weight_nonneg hNN e.vertex u
          simp only
          positivity
        · exact hacc.visNN it h2
    · exact hacc

lemma mergeF_NN {P : Finset String} {e : Entry} {snapshot : Visited}
    (he : 0 ≤ e.cost) (hsnap : ∀ it ∈ snapshot, 0 ≤ it.2) (st : LoopState)
    (h : NNInv st) : NNInv (mergeF P e snapshot st) := by
  unfold mergeF
  refine foldl_preserves NNInv _ snapshot (fun acc it hit hacc => ?_) st h
  unfold mergeBody
  dsimp only
  split
  · split
    · refine ⟨fun x hx => ?_, fun it2 hit2 => ?_, hacc.bestNN⟩
      · rcases mem_heappush.mp hx with h2 | h2
        · subst h2
          have := hsnap it hit
          simp only
          positivity
        · exact hacc.pqNN x h2
      · rcases vSet_mem _ _ _ it2 hit2 with h2 | h2
        · subst h2
          have := hsnap it hit
          simp only
          positivity
        · exact hacc.visNN it2 h2
    · exact hacc
  · exact hacc

lemma stepB_NN (g : Graph) (P : Finset String) (S : String → List String)
    (st : LoopState) (hNN : NonNegW g) (h : NNInv st) :
    NNInv (stepB g P S st) := by
  refine stepB_cases g P S st NNInv ?_ ?_ ?_ ?_ ?_ ?_
  · intro _; exact h
  all_goals intro e rest hpop
  all_goals
    have hperm := heappop_perm pyLt st.pq rest e hpop
    have hrest : ∀ x ∈ rest, 0 ≤ x.cost :=
      fun x hx => h.pqNN x (hperm.mem_iff.mpr (List.mem_cons_of_mem e hx))
    have heNN : 0 ≤ e.cost := h.pqNN e (hperm.mem_iff.mpr (List.mem_cons_self e rest))
  · intro _; exact ⟨hrest, h.visNN, h.bestNN⟩
  · intro _ _; exact ⟨hrest, h.visNN, h.bestNN⟩
  · intro _ _ _ _
    refine ⟨hrest, h.visNN, fun q hq => ?_⟩
    simp only [Option.some.injEq] at hq
    rw [← hq]; exact heNN
  · intro _ _ _ _; exact ⟨hrest, h.visNN, h.bestNN⟩
  · intro _ _ _
    exact relaxB_NN hNN heNN _ ⟨hrest, h.visNN, h.bestNN⟩

lemma stepP_NN (g : Graph) (P : Finset String) (S : String → List String)
    (st : LoopState) (hNN : NonNegW g) (h : NNInv st) :
    NNInv (stepP g P S st) := by
  refine stepP_cases g P S st NNInv ?_ ?_ ?_ ?_ ?_ ?_ ?_
  · intro _; exact h
  all_goals intro e rest hpop
  all_goals
    have hperm := heappop_perm pyLt st.pq rest e hpop
    have hrest : ∀ x ∈ rest, 0 ≤ x.cost :=
      fun x hx => h.pqNN x (hperm.mem_iff.mpr (List.mem_cons_of_mem e hx))
    have heNN : 0 ≤ e.cost := h.pqNN e (hperm.mem_iff.mpr (List.mem_cons_self e rest))
  · intro _; exact ⟨hrest, h.visNN, h.bestNN⟩
  · intro _ _; exact ⟨hrest, h.visNN, h.bestNN⟩
  · intro _ _ _ _
    refine ⟨hrest, h.visNN, fun q hq => ?_⟩
    simp only [Option.some.injEq] at hq
    rw [← hq]; exact heNN
  · intro _ _ _ _; exact ⟨hrest, h.visNN, h.bestNN⟩
  · intro _ _ _ _; exact ⟨hrest, h.visNN, h.bestNN⟩
  · intro _ _ _ _
    have h1 : NNInv (relaxP g P S e { st with pq := rest }) :=
      relaxP_NN hNN heNN _ ⟨hrest, h.visNN, h.bestNN⟩
    exact mergeF_NN heNN h1.visNN _ h1

lemma initB_NN (g : Graph) (P : Finset String) (S : String → List String) :
    NNInv (initB g P S) := by
  unfold initB
  refine foldl_preserves NNInv _ g.nodes (fun acc v _ hacc => ?_)
    ⟨none, [], [], []⟩ ⟨by simp, by simp, by simp⟩
  unfold seedBodyB
  refine ⟨fun x hx => ?_, fun it hit => ?_, hacc.bestNN⟩
  · rcases mem_heappush.mp hx with h2 | h2
    · subst h2; simp
    · exact hacc.pqNN x h2
  · rcases vSet_mem _ _ _ it hit with h2 | h2
    · subst h2; simp
    · exact hacc.visNN it h2

lemma seedsP_NN (g : Graph) (P : Finset String) (S : String → List String) :
    NNInv (seedsP g P S) := by
  unfold seedsP
  refine foldl_preserves NNInv _ g.nodes (fun acc v _ hacc => ?_)
    ⟨none, [], [], []⟩ ⟨by simp, by simp, by simp⟩
  refine foldl_preserves NNInv _ _ (fun acc2 lbl _ hacc2 => ?_) acc hacc
  unfold seedBodyP
  dsimp only
  split
  · exact hacc2
  · refine ⟨fun x hx => ?_, fun it hit => ?_, hacc2.bestNN⟩
    · rcases mem_heappush.mp hx with h2 | h2
      · subst h2; simp
      · exact hacc2.pqNN x h2
    · rcases vSet_mem _ _ _ it hit with h2 | h2
      · subst h2; simp
      · exact hacc2.visNN it h2

/-! ## Empty-query behavior (claim C3) -/

lemma vLook_vSet (t : Visited) (k k2 : SKey) (c : ℚ) :
    vLook (vSet t k c) k2 = if k2 = k then some c else vLook t k2 := by
  by_cases h : k2 = k
  · rw [if_pos h, h]; exact vLook_vSet_self t k c
  · rw [if_neg h]; exact vLook_vSet_ne t k k2 c h

lemma heappush_ne_nil (l : List Entry) (e : Entry) : heappush pyLt l e ≠ [] := by
  intro h
  have := (heappush_perm pyLt l e).length_eq
  rw [h] at this
  simp at this

lemma heappop_eq_none {α : Type} [Inhabited α] (lt : α → α → Bool)
    (l : List α) (h : heappop lt l = none) : l = [] := by
  match l with
  | [] => rfl
  | x :: xs =>
    unfold heappop at h
    dsimp only at h
    match hrest : (x :: xs).dropLast with
    | [] => rw [hrest] at h; simp at h
    | y :: ys => rw [hrest] at h; simp at h

lemma seedsP_empty (g : Graph) (S : String → List String) :
    seedsP g ∅ S = ⟨none, [], [], []⟩ := by
  unfold seedsP
  have hbody : ∀ (nodes : List String) (acc : LoopState),
      nodes.foldl (fun acc v =>
        ((S v).filter (fun l => decide (l ∈ (∅ : Finset String)))).foldl
          (seedBodyP v) acc) acc = acc := by
    intro nodes
    induction nodes with
    | nil => intro acc; rfl
    | cons v rest ih =>
      intro acc
      simp only [List.foldl_cons]
      have hf : (S v).filter (fun l => decide (l ∈ (∅ : Finset String))) = [] := by
        simp
      rw [hf]
      simp only [List.foldl_nil]
      exact ih acc
  exact hbody g.nodes _

/-- When the query is empty, the pruned engine's frontier is never seeded
and the search returns plus infinity with the empty path at once. -/
lemma pruned_dp_empty (fuel : Nat) (g : Graph) (S : String → List String) :
    pruned_dp fuel g ∅ S = some (none, []) := by
  unfold pruned_dp
  rw [seedsP_empty]
  cases fuel <;> simp [loopGo]

/-- Invariant of the `basic` loop when `P = ∅`: all entries are
zero-cost live single-vertex seeds, and the best solution is either a
zero-cost single vertex or not yet set while the frontier is non-empty. -/
structure EmptyPInv (st : LoopState) : Prop where
  ent : ∀ x ∈ st.pq, x.cost = 0 ∧ (∃ v, x.path = [v]) ∧
    vLook st.visited (x.vertex, x.labels) = some 0
  bestC : (st.best = some 0 ∧ ∃ v, st.bestPath = [v]) ∨
    (st.best = none ∧ st.bestPath = [] ∧ st.pq ≠ [])

lemma stepB_emptyP (g : Graph) (S : String → List String) (st : LoopState)
    (h : EmptyPInv st) : EmptyPInv (stepB g ∅ S st) := by
  refine stepB_cases g ∅ S st EmptyPInv ?_ ?_ ?_ ?_ ?_ ?_
  · intro _; exact h
  all_goals intro e rest hpop
  all_goals
    have hperm := heappop_perm pyLt st.pq rest e hpop
    have heF := h.ent e (hperm.mem_iff.mpr (List.mem_cons_self e rest))
    have hrest : ∀ x ∈ rest, x.cost = 0 ∧ (∃ v, x.path = [v]) ∧
        vLook st.visited (x.vertex, x.labels) = some 0 :=
      fun x hx => h.ent x (hperm.mem_iff.mpr (List.mem_cons_of_mem e hx))
  · intro h1
    exact absurd (heF.2.2.trans (by rw [heF.1])) h1
  · intro _ hge
    rcases h.bestC with hb | hb
    · refine ⟨hrest, Or.inl hb⟩
    · rw [hb.1] at hge; simp [geBest] at hge
  · intro _ _ _ _
    exact ⟨hrest, Or.inl ⟨by rw [heF.1], heF.2.1⟩⟩
  · intro _ hge _ hlt
    rcases h.bestC with hb | hb
    · rw [hb.1] at hge
      rw [heF.1] at hge
      simp [geBest] at hge
    · rw [hb.1] at hlt; simp [ltBest] at hlt
  · intro _ _ hsub
    exact absurd (Finset.empty_subset e.labels) hsub

lemma initB_emptyP (g : Graph) (S : String → List String)
    (hne : g.nodes ≠ []) : EmptyPInv (initB g ∅ S) := by
  have hmain : ∀ (nodes : List String) (acc : LoopState),
      (∀ x ∈ acc.pq, x.cost = 0 ∧ (∃ v, x.path = [v]) ∧
        vLook acc.visited (x.vertex, x.labels) = some 0) →
      ∀ x ∈ (nodes.foldl (seedBodyB ∅ S) acc).pq, x.cost = 0 ∧
        (∃ v, x.path = [v]) ∧
        vLook (nodes.foldl (seedBodyB ∅ S) acc).visited (x.vertex, x.labels)
          = some 0 := by
    intro nodes
    induction nodes with
    | nil => intro acc hacc; simpa using hacc
    | cons v rest ih =>
      intro acc hacc
      simp only [List.foldl_cons]
      refine ih _ (fun x hx => ?_)
      unfold seedBodyB
      dsimp only
      rcases mem_heappush.mp hx with h2 | h2
      · subst h2
        refine ⟨rfl, ⟨v, rfl⟩, ?_⟩
        exact vLook_vSet_self ..
      · obtain ⟨hc, hp, hv⟩ := hacc x h2
        refine ⟨hc, hp, ?_⟩
        rw [vLook_vSet]
        split
        · rfl
        · exact hv
  have hpq : ∀ (nodes : List String) (acc : LoopState), acc.pq ≠ [] →
      (nodes.foldl (seedBodyB ∅ S) acc).pq ≠ [] := by
    intro nodes
    induction nodes with
    | nil => intro acc h; simpa using h
    | cons v rest ih =>
      intro acc _
      simp only [List.foldl_cons]
      refine ih _ ?_
      unfold seedBodyB
      dsimp only
      exact heappush_ne_nil _ _
  constructor
  · exact hmain g.nodes ⟨none, [], [], []⟩ (by simp)
  · refine Or.inr ⟨?_, ?_, ?_⟩
    · have : ∀ (nodes : List String) (acc : LoopState),
          (nodes.foldl (seedBodyB ∅ S) acc).best = acc.best := by
        intro nodes
        induction nodes with
        | nil => intro acc; rfl
        | cons v rest ih => intro acc; simp only [List.foldl_cons]; rw [ih]; rfl
      exact this g.nodes _
    · have : ∀ (nodes : List String) (acc : LoopState),
          (nodes.foldl (seedBodyB ∅ S) acc).bestPath = acc.bestPath := by
        intro nodes
        induction nodes with
        | nil => intro acc; rfl
        | cons v rest ih => intro acc; simp only [List.foldl_cons]; rw [ih]; rfl
      exact this g.nodes _
    · match hn : g.nodes with
      | [] => exact absurd hn hne
      | v :: rest =>
        unfold initB
        rw [hn]
        simp only [List.foldl_cons]
        refine hpq rest _ ?_
        unfold seedBodyB
        dsimp only
        exact heappush_ne_nil _ _

/-- When the query is empty and the graph non-empty, `basic` reports cost
zero with a single-vertex path. -/
lemma basic_empty (fuel : Nat) (g : Graph) (S : String → List String)
    (r : Option ℚ × List String) (hne : g.nodes ≠ [])
    (hrun : basic fuel g ∅ S = some r) :
    r.1 = some 0 ∧ ∃ v, r.2 = [v] := by
  obtain ⟨st2, hInv, hpq, hbest, hpath⟩ :=
    loopGo_reach (stepB g ∅ S) EmptyPInv (stepB_emptyP g S) fuel
      (initB g ∅ S) r (initB_emptyP g S hne) hrun
  rcases hInv.bestC with hb | hb
  · rw [← hbest, ← hpath]
    exact ⟨hb.1, hb.2⟩
  · exact absurd hpq hb.2.2

/-! ## Optimality of `basic` (claim C1) -/

lemma foldl_relaxB_le (g : Graph) (P : Finset String) (S : String → List String)
    (e : Entry) (l : List String) (st : LoopState) :
    FoldLE (l.foldl (relaxBodyB g P S e) st) st := by
  refine foldl_rel FoldLE (fun hab hbc => FoldLE_trans hab hbc) FoldLE_refl _
    (fun a u => ?_) l st
  unfold relaxBodyB
  dsimp only
  split
  · exact ⟨vLE_set_of_ltD (by assumption), rfl, rfl,
      fun x hx => mem_heappush.mpr (Or.inr hx)⟩
  · exact FoldLE_refl a

/-- Disjunct three of the optimality trichotomy: the state is not yet
covering, and all its successors are recorded at no more than its cost
plus the corresponding edge weight. -/
def Relaxed (g : Graph) (P : Finset String) (S : String → List String)
    (t : Visited) (k : SKey) (c : ℚ) : Prop :=
  ¬ P ⊆ k.2 ∧ ∀ u ∈ nbrs g k.1,
    ∃ c2, vLook t (u, k.2 ∪ (SFin S u ∩ P)) = some c2 ∧ c2 ≤ c + weight g k.1 u

lemma relaxed_mono {g : Graph} {P : Finset String} {S : String → List String}
    {t2 t : Visited} {k : SKey} {c : ℚ} (hle : vLE t2 t)
    (h : Relaxed g P S t k c) : Relaxed g P S t2 k c := by
  refine ⟨h.1, fun u hu => ?_⟩
  obtain ⟨c2, hc2, hle2⟩ := h.2 u hu
  obtain ⟨c3, hc3, hle3⟩ := hle _ _ hc2
  exact ⟨c3, hc3, le_trans hle3 hle2⟩

/-- The optimality trichotomy for one visited state: a live frontier
entry exists, or the state cannot beat the best solution, or it has been
fully relaxed. -/
def TriState (g : Graph) (P : Finset String) (S : String → List String)
    (st : LoopState) (k : SKey) (c : ℚ) : Prop :=
  (∃ x ∈ st.pq, x.vertex = k.1 ∧ x.labels = k.2 ∧ x.cost = c) ∨
  geBest c st.best = true ∨
  Relaxed g P S st.visited k c

/-- The optimality invariant of the `basic` loop. -/
def TriInv (g : Graph) (P : Finset String) (S : String → List String)
    (st : LoopState) : Prop :=
  ∀ k c, vLook st.visited k = some c → TriState g P S st k c

lemma geBest_or_ltBest (c : ℚ) (b : Option ℚ) :
    geBest c b = true ∨ ltBest c b = true := by
  match b with
  | none => right; rfl
  | some q =>
    simp only [geBest, ltBest, decide_eq_true_eq]
    rcases le_or_lt q c with h | h
    · exact Or.inl h
    · exact Or.inr h

lemma triState_transport {g : Graph} {P : Finset String}
    {S : String → List String} {st : LoopState} {k : SKey} {c : ℚ}
    {e : Entry} {rest : List Entry}
    (hperm : st.pq.Perm (e :: rest))
    (hne : k ≠ (e.vertex, e.labels))
    (h : TriState g P S st k c) :
    TriState g P S { st with pq := rest } k c := by
  rcases h with ⟨x, hx, hfields⟩ | h | h
  · have hx2 : x ∈ e :: rest := hperm.mem_iff.mp hx
    rcases List.mem_cons.mp hx2 with hxe | hxr
    · exfalso
      apply hne
      have h1 : k.1 = e.vertex := by rw [← hfields.1, hxe]
      have h2 : k.2 = e.labels := by rw [← hfields.2.1, hxe]
      exact Prod.ext h1 h2
    · exact Or.inl ⟨x, hxr, hfields⟩
  · exact Or.inr (Or.inl h)
  · exact Or.inr (Or.inr h)

/-- Relaxation establishes the trichotomy for the expanding state and
preserves it elsewhere. -/
lemma relaxB_tri {g : Graph} {P : Finset String} {S : String → List String}
    {e : Entry} (hNN : NonNegW g) :
    ∀ (l : List String), (∀ u ∈ l, u ∈ nbrs g e.vertex) →
    ∀ st : LoopState,
      vLook st.visited (e.vertex, e.labels) = some e.cost →
      (∀ k c, vLook st.visited k = some c → k ≠ (e.vertex, e.labels) →
        TriState g P S st k c) →
      vLook (l.foldl (relaxBodyB g P S e) st).visited (e.vertex, e.labels)
          = some e.cost ∧
      (∀ k c, vLook (l.foldl (relaxBodyB g P S e) st).visited k = some c →
        k ≠ (e.vertex, e.labels) →
        TriState g P S (l.foldl (relaxBodyB g P S e) st) k c) ∧
      (∀ u ∈ l, ∃ c2,
        vLook (l.foldl (relaxBodyB g P S e) st).visited
          (u, e.labels ∪ (SFin S u ∩ P)) = some c2 ∧
        c2 ≤ e.cost + weight g e.vertex u) := by
  intro l
  induction l with
  | nil =>
    intro _ st hlive htri
    exact ⟨hlive, fun k c h hne => htri k c h hne, by simp⟩
  | cons u l2 ih =>
    intro hl st hlive htri
    have hu : u ∈ nbrs g e.vertex := hl u (List.mem_cons_self u l2)
    have hl2 : ∀ u2 ∈ l2, u2 ∈ nbrs g e.vertex :=
      fun u2 h2 => hl u2 (List.mem_cons_of_mem u h2)
    simp only [List.foldl_cons]
    set ns : SKey := (u, e.labels ∪ (SFin S u ∩ P)) with hns
    set nc : ℚ := e.cost + weight g e.vertex u with hnc
    have hwNN := weight_nonneg hNN e.vertex u
    by_cases hpush : ltD nc (vLook st.visited ns) = true
    · -- the push case
      have hbody : relaxBodyB g P S e st u =
          { st with visited := vSet st.visited ns nc,
                    pq := heappush pyLt st.pq
                      ⟨nc, u, e.labels ∪ (SFin S u ∩ P), e.path ++ [u]⟩ } := by
        unfold relaxBodyB
        dsimp only
        rw [if_pos hpush]
      have hnsne : ns ≠ (e.vertex, e.labels) := by
        intro hcontra
        rw [hcontra, hlive] at hpush
        simp only [ltD, decide_eq_true_eq] at hpush
        rw [hnc] at hpush
        linarith
      have hlive2 : vLook (vSet st.visited ns nc) (e.vertex, e.labels)
          = some e.cost := by
        rw [vLook_vSet]
        rw [if_neg (fun hcontra => hnsne hcontra.symm)]
        exact hlive
      have htri2 : ∀ k c,
          vLook (relaxBodyB g P S e st u).visited k = some c →
          k ≠ (e.vertex, e.labels) →
          TriState g P S (relaxBodyB g P S e st u) k c := by
        intro k c hk hkne
        rw [hbody] at hk
        dsimp only at hk
        rw [hbody]
        by_cases hkns : k = ns
        · subst hkns
          rw [vLook_vSet_self] at hk
          simp only [Option.some.injEq] at hk
          refine Or.inl ⟨⟨nc, u, e.labels ∪ (SFin S u ∩ P), e.path ++ [u]⟩,
            mem_heappush.mpr (Or.inl rfl), rfl, rfl, hk⟩
        · rw [vLook_vSet_ne _ _ _ _ hkns] at hk
          have hold := htri k c hk hkne
          rcases hold with ⟨x, hx, hfields⟩ | hb | hr
          · exact Or.inl ⟨x, mem_heappush.mpr (Or.inr hx), hfields⟩
          · exact Or.inr (Or.inl hb)
          · exact Or.inr (Or.inr (relaxed_mono (vLE_set_of_ltD hpush) hr))
      have hres := ih hl2 (relaxBodyB g P S e st u)
        (by rw [hbody]; exact hlive2) htri2
      refine ⟨hres.1, hres.2.1, fun u2 hu2 => ?_⟩
      rcases List.mem_cons.mp hu2 with hhead | htail
      · subst hhead
        have hfle := foldl_relaxB_le g P S e l2 (relaxBodyB g P S e st u2)
        have hlook : vLook (relaxBodyB g P S e st u2).visited ns = some nc := by
          rw [hbody]
          exact vLook_vSet_self ..
        obtain ⟨c3, hc3, hle3⟩ := hfle.1 _ _ hlook
        exact ⟨c3, hc3, le_trans hle3 le_rfl⟩
      · exact hres.2.2 u2 htail
    · -- the no-push case: the target is already at least as good
      have hbody : relaxBodyB g P S e st u = st := by
        unfold relaxBodyB
        dsimp only
        rw [if_neg hpush]
      rw [hbody]
      have hres := ih hl2 st hlive htri
      refine ⟨hres.1, hres.2.1, fun u2 hu2 => ?_⟩
      rcases List.mem_cons.mp hu2 with hhead | htail
      · subst hhead
        match hv : vLook st.visited ns with
        | none => rw [hv] at hpush; simp [ltD] at hpush
        | some d =>
          rw [hv] at hpush
          simp only [ltD, decide_eq_true_eq] at hpush
          have hd : d ≤ nc := le_of_not_lt hpush
          have hfle := foldl_relaxB_le g P S e l2 st
          obtain ⟨c3, hc3, hle3⟩ := hfle.1 _ _ hv
          exact ⟨c3, hc3, le_trans hle3 hd⟩
      · exact hres.2.2 u2 htail

lemma stepB_tri (g : Graph) (P : Finset String) (S : String → List String)
    (st : LoopState) (hNN : NonNegW g) (h : TriInv g P S st) :
    TriInv g P S (stepB g P S st) := by
  refine stepB_cases g P S st (TriInv g P S) ?_ ?_ ?_ ?_ ?_ ?_
  · intro _; exact h
  all_goals intro e rest hpop
  all_goals have hperm := heappop_perm pyLt st.pq rest e hpop
  · -- stale pop
    intro h1
    intro k c hk
    by_cases hkne : k = (e.vertex, e.labels)
    · rcases h k c hk with ⟨x, hx, hfields⟩ | hb | hr
      · have hx2 : x ∈ e :: rest := hperm.mem_iff.mp hx
        rcases List.mem_cons.mp hx2 with hxe | hxr
        · exfalso
          apply h1
          rw [← hkne, hk]
          have hce : c = e.cost := by rw [← hfields.2.2, hxe]
          rw [hce]
        · exact Or.inl ⟨x, hxr, hfields⟩
      · exact Or.inr (Or.inl hb)
      · exact Or.inr (Or.inr hr)
    · exact triState_transport hperm hkne (h k c hk)
  · -- cost at least best
    intro h1 hge
    intro k c hk
    by_cases hkne : k = (e.vertex, e.labels)
    · rw [hkne, h1] at hk
      simp only [Option.some.injEq] at hk
      rw [hk] at hge
      exact Or.inr (Or.inl hge)
    · exact triState_transport hperm hkne (h k c hk)
  · -- covering pop, new best
    intro h1 hge hcov hlt
    intro k c hk
    by_cases hkne : k = (e.vertex, e.labels)
    · rw [hkne, h1] at hk
      simp only [Option.some.injEq] at hk
      refine Or.inr (Or.inl ?_)
      simp only [geBest, decide_eq_true_eq]
      exact le_of_eq hk
    · have htr := triState_transport hperm hkne (h k c hk)
      rcases htr with hd1 | hb | hr
      · exact Or.inl hd1
      · refine Or.inr (Or.inl ?_)
        match hbv : st.best with
        | none => rw [hbv] at hb; simp [geBest] at hb
        | some q =>
          rw [hbv] at hb hlt
          simp only [geBest, decide_eq_true_eq] at hb ⊢
          simp only [ltBest, decide_eq_true_eq] at hlt
          linarith
      · exact Or.inr (Or.inr hr)
  · -- covering pop, not better: impossible
    intro h1 hge hcov hlt
    rcases geBest_or_ltBest e.cost st.best with hc | hc
    · rw [hge] at hc; exact absurd hc (by simp)
    · rw [hlt] at hc; exact absurd hc (by simp)
  · -- expansion
    intro h1 hge hnc
    have hlive : vLook ({ st with pq := rest } : LoopState).visited
        (e.vertex, e.labels) = some e.cost := h1
    have htri : ∀ k c,
        vLook ({ st with pq := rest } : LoopState).visited k = some c →
        k ≠ (e.vertex, e.labels) →
        TriState g P S { st with pq := rest } k c :=
      fun k c hk hkne => triState_transport hperm hkne (h k c hk)
    have hres := relaxB_tri hNN (nbrs g e.vertex) (fun _ hu => hu)
      { st with pq := rest } hlive htri
    intro k c hk
    by_cases hkne : k = (e.vertex, e.labels)
    · subst hkne
      unfold relaxB at hk ⊢
      rw [hres.1] at hk
      simp only [Option.some.injEq] at hk
      refine Or.inr (Or.inr ⟨hnc, fun u hu => ?_⟩)
      obtain ⟨c2, hc2, hle2⟩ := hres.2.2 u hu
      rw [← hk]
      exact ⟨c2, hc2, hle2⟩
    · exact hres.2.1 k c hk hkne

/-- Every graph vertex keeps a seeded state at non-positive cost. -/
def SeedCov (g : Graph) (P : Finset String) (S : String → List String)
    (t : Visited) : Prop :=
  ∀ v ∈ g.nodes, ∃ c, vLook t (v, SFin S v ∩ P) = some c ∧ c ≤ 0

lemma seedCov_mono {g : Graph} {P : Finset String} {S : String → List String}
    {t2 t : Visited} (hle : vLE t2 t) (h : SeedCov g P S t) :
    SeedCov g P S t2 := by
  intro v hv
  obtain ⟨c, hc, hc0⟩ := h v hv
  obtain ⟨c2, hc2, hle2⟩ := hle _ _ hc
  exact ⟨c2, hc2, le_trans hle2 hc0⟩

lemma seedfold_lookup (P : Finset String) (S : String → List String) :
    ∀ (nodes : List String) (acc : LoopState) (k : SKey),
      vLook ((nodes.foldl (seedBodyB P S) acc).visited) k
        = vLook acc.visited k ∨
      vLook ((nodes.foldl (seedBodyB P S) acc).visited) k = some 0 := by
  intro nodes
  induction nodes with
  | nil => intro acc k; exact Or.inl rfl
  | cons v rest ih =>
    intro acc k
    simp only [List.foldl_cons]
    rcases ih (seedBodyB P S acc v) k with h | h
    · unfold seedBodyB at h
      dsimp only at h
      rw [vLook_vSet] at h
      by_cases hk : k = (v, SFin S v ∩ P)
      · rw [if_pos hk] at h; exact Or.inr h
      · rw [if_neg hk] at h; exact Or.inl h
    · exact Or.inr h

lemma initB_seedCov (g : Graph) (P : Finset String) (S : String → List String) :
    SeedCov g P S (initB g P S).visited := by
  unfold initB
  have hmain : ∀ (nodes : List String) (acc : LoopState) (v : String),
      v ∈ nodes →
      ∃ c, vLook ((nodes.foldl (seedBodyB P S) acc).visited)
        (v, SFin S v ∩ P) = some c ∧ c ≤ 0 := by
    intro nodes
    induction nodes with
    | nil => intro acc v hv; simp at hv
    | cons w rest ih =>
      intro acc v hv
      simp only [List.foldl_cons]
      rcases List.mem_cons.mp hv with hvw | hvr
      · subst hvw
        rcases seedfold_lookup P S rest (seedBodyB P S acc v)
            (v, SFin S v ∩ P) with h | h
        · unfold seedBodyB at h
          dsimp only at h
          rw [vLook_vSet_self] at h
          exact ⟨0, h, le_rfl⟩
        · exact ⟨0, h, le_rfl⟩
      · exact ih (seedBodyB P S acc w) v hvr
  intro v hv
  exact hmain g.nodes _ v hv

lemma initB_tri (g : Graph) (P : Finset String) (S : String → List String) :
    TriInv g P S (initB g P S) := by
  unfold initB
  have hmain : ∀ (nodes : List String) (acc : LoopState),
      (∀ k c, vLook acc.visited k = some c → c = 0 ∧
        ∃ x ∈ acc.pq, x.vertex = k.1 ∧ x.labels = k.2 ∧ x.cost = 0) →
      ∀ k c, vLook ((nodes.foldl (seedBodyB P S) acc).visited) k = some c →
        c = 0 ∧ ∃ x ∈ (nodes.foldl (seedBodyB P S) acc).pq,
          x.vertex = k.1 ∧ x.labels = k.2 ∧ x.cost = 0 := by
    intro nodes
    induction nodes with
    | nil => intro acc hacc; exact hacc
    | cons v rest ih =>
      intro acc hacc
      simp only [List.foldl_cons]
      refine ih _ (fun k c hk => ?_)
      unfold seedBodyB at hk ⊢
      dsimp only at hk ⊢
      rw [vLook_vSet] at hk
      by_cases hkv : k = (v, SFin S v ∩ P)
      · rw [if_pos hkv] at hk
        simp only [Option.some.injEq] at hk
        subst hkv
        exact ⟨hk.symm, ⟨0, v, SFin S v ∩ P, [v]⟩,
          mem_heappush.mpr (Or.inl rfl), rfl, rfl, rfl⟩
      · rw [if_neg hkv] at hk
        obtain ⟨hc0, x, hx, hfields⟩ := hacc k c hk
        exact ⟨hc0, x, mem_heappush.mpr (Or.inr hx), hfields⟩
  intro k c hk
  obtain ⟨hc0, x, hx, hfields⟩ := hmain g.nodes ⟨none, [], [], []⟩
    (by intro k c hk; simp [vLook] at hk) k c hk
  exact Or.inl ⟨x, hx, hfields.1, hfields.2.1, by rw [hfields.2.2, hc0]⟩

/-- The optimality chain: from a dominated state, a covering chain forces
the final best cost below the chain's cost. -/
lemma tri_chain {g : Graph} {P : Finset String} {S : String → List String}
    (hNN : NonNegW g) (st2 : LoopState) (hT : TriInv g P S st2)
    (hpq : st2.pq = []) :
    ∀ (tail : List String) (v : String) (L : Finset String) (c : ℚ),
      vLook st2.visited (v, L) = some c →
      chainB g (v :: tail) = true →
      P ⊆ L ∪ pathLabs S P tail →
      ∃ qb, st2.best = some qb ∧ qb ≤ c + pathCost g (v :: tail) := by
  intro tail
  induction tail with
  | nil =>
    intro v L c hlook _ hcover
    rcases hT (v, L) c hlook with ⟨x, hx, _⟩ | hb | hr
    · rw [hpq] at hx; simp at hx
    · match hbv : st2.best with
      | none => rw [hbv] at hb; simp [geBest] at hb
      | some q =>
        rw [hbv] at hb
        simp only [geBest, decide_eq_true_eq] at hb
        exact ⟨q, rfl, by simpa [pathCost] using hb⟩
    · exfalso
      exact hr.1 (by simpa [pathLabs] using hcover)
  | cons u tail2 ih =>
    intro v L c hlook hchain hcover
    rcases hT (v, L) c hlook with ⟨x, hx, _⟩ | hb | hr
    · rw [hpq] at hx; simp at hx
    · match hbv : st2.best with
      | none => rw [hbv] at hb; simp [geBest] at hb
      | some q =>
        rw [hbv] at hb
        simp only [geBest, decide_eq_true_eq] at hb
        refine ⟨q, rfl, le_trans hb ?_⟩
        have := pathCost_nonneg hNN (v :: u :: tail2)
        linarith
    · have hchain2 : chainB g (u :: tail2) = true := by
        simp only [chainB, Bool.and_eq_true] at hchain
        exact hchain.2
      have hadj : u ∈ nbrs g v := by
        simp only [chainB, Bool.and_eq_true, decide_eq_true_eq] at hchain
        exact hchain.1
      obtain ⟨c2, hc2, hle2⟩ := hr.2 u hadj
      have hcover2 : P ⊆ (L ∪ (SFin S u ∩ P)) ∪ pathLabs S P tail2 := by
        refine subset_trans hcover ?_
        simp only [pathLabs]
        rw [Finset.union_assoc]
      obtain ⟨qb, hqb, hqble⟩ := ih u (L ∪ (SFin S u ∩ P)) c2 hc2 hchain2 hcover2
      refine ⟨qb, hqb, ?_⟩
      have hstep : pathCost g (v :: u :: tail2)
          = weight g v u + pathCost g (u :: tail2) := rfl
      rw [hstep]
      linarith

/-- After a completed `basic` run, the reported cost is a lower bound of
every covering walk's cost (with non-negative weights). -/
lemma basic_le_walks (fuel : Nat) (g : Graph) (P : Finset String)
    (S : String → List String) (r : Option ℚ × List String)
    (hNN : NonNegW g) (hrun : basic fuel g P S = some r) :
    ∀ p, CoverWalk g P S p → ∃ qb, r.1 = some qb ∧ qb ≤ pathCost g p := by
  have hInv : ∀ st, (TriInv g P S st ∧ SeedCov g P S st.visited) →
      (TriInv g P S (stepB g P S st) ∧
        SeedCov g P S (stepB g P S st).visited) := by
    intro st hst
    exact ⟨stepB_tri g P S st hNN hst.1,
      seedCov_mono (stepB_visited_le g P S st) hst.2⟩
  obtain ⟨st2, hst2, hpq, hbest, _⟩ :=
    loopGo_reach (stepB g P S) _ hInv fuel (initB g P S) r
      ⟨initB_tri g P S, initB_seedCov g P S⟩ hrun
  intro p hp
  obtain ⟨hne, hchain, hing, hcov⟩ := hp
  match p, hne with
  | v :: tail, _ =>
    have hv : v ∈ g.nodes := hing v (List.mem_cons_self v tail)
    obtain ⟨c0, hc0, hc00⟩ := hst2.2 v hv
    have hcover : P ⊆ (SFin S v ∩ P) ∪ pathLabs S P tail := by
      refine subset_trans hcov ?_
      simp [pathLabs]
    obtain ⟨qb, hqb, hqble⟩ :=
      tri_chain hNN st2 hst2.1 hpq tail v (SFin S v ∩ P) c0 hc0 hchain hcover
    refine ⟨qb, by rw [← hbest]; exact hqb, ?_⟩
    linarith

/-! ## Vertex membership of stored paths (for `ClosedG` graphs) -/

/-- All stored paths stay inside the graph's vertex set. -/
structure MemInv (g : Graph) (st : LoopState) : Prop where
  entM : ∀ x ∈ st.pq, InG g x.path ∧ x.vertex ∈ g.nodes
  bestM : InG g st.bestPath

lemma relaxB_mem {g : Graph} {P : Finset String} {S : String → List String}
    {e : Entry} (hC : ClosedG g) (heM : InG g e.path) (heV : e.vertex ∈ g.nodes)
    (st : LoopState) (h : MemInv g st) : MemInv g (relaxB g P S e st) := by
  unfold relaxB
  refine foldl_preserves (MemInv g) _ (nbrs g e.vertex)
    (fun acc u hu hacc => ?_) st h
  unfold relaxBodyB
  dsimp only
  split
  · refine ⟨fun x hx => ?_, hacc.bestM⟩
    rcases mem_heappush.mp hx with h2 | h2
    · subst h2
      have huN : u ∈ g.nodes := hC e.vertex heV u hu
      constructor
      · intro v hv
        rcases List.mem_append.mp hv with h3 | h3
        · exact heM v h3
        · simp only [List.mem_singleton] at h3
          rw [h3]; exact huN
      · exact huN
    · exact hacc.entM x h2
  · exact hacc

lemma stepB_mem (g : Graph) (P : Finset String) (S : String → List String)
    (st : LoopState) (hC : ClosedG g) (h : MemInv g st) :
    MemInv g (stepB g P S st) := by
  refine stepB_cases g P S st (MemInv g) ?_ ?_ ?_ ?_ ?_ ?_
  · intro _; exact h
  all_goals intro e rest hpop
  all_goals
    have hperm := heappop_perm pyLt st.pq rest e hpop
    have heM := h.entM e (hperm.mem_iff.mpr (List.mem_cons_self e rest))
    have hrest : ∀ x ∈ rest, InG g x.path ∧ x.vertex ∈ g.nodes :=
      fun x hx => h.entM x (hperm.mem_iff.mpr (List.mem_cons_of_mem e hx))
  · intro _; exact ⟨hrest, h.bestM⟩
  · intro _ _; exact ⟨hrest, h.bestM⟩
  · intro _ _ _ _; exact ⟨hrest, heM.1⟩
  · intro _ _ _ _; exact ⟨hrest, h.bestM⟩
  · intro _ _ _
    exact relaxB_mem hC heM.1 heM.2 _ ⟨hrest, h.bestM⟩

lemma initB_mem (g : Graph) (P : Finset String) (S : String → List String) :
    MemInv g (initB g P S) := by
  unfold initB
  refine foldl_preserves (MemInv g) _ g.nodes (fun acc v hv hacc => ?_)
    ⟨none, [], [], []⟩ ⟨by simp, by intro v hv; simp at hv⟩
  unfold seedBodyB
  refine ⟨fun x hx => ?_, hacc.bestM⟩
  rcases mem_heappush.mp hx with h2 | h2
  · subst h2
    exact ⟨by intro w hw; simp only [List.mem_singleton] at hw; rw [hw]; exact hv, hv⟩
  · exact hacc.entM x h2

/-- After a completed `basic` run on a closed graph, a finite reported
cost is attained by the returned path, which is a covering walk. -/
lemma basic_attained (fuel : Nat) (g : Graph) (P : Finset String)
    (S : String → List String) (r : Option ℚ × List String)
    (hC : ClosedG g) (hrun : basic fuel g P S = some r) :
    (∀ c : ℚ, r.1 = some c →
      CoverWalk g P S r.2 ∧ pathCost g r.2 = c) ∧
    (r.1 = none → r.2 = []) := by
  have hInv : ∀ st, (BInv g P S st ∧ MemInv g st) →
      (BInv g P S (stepB g P S st) ∧ MemInv g (stepB g P S st)) := by
    intro st hst
    exact ⟨stepB_BInv g P S st hst.1, stepB_mem g P S st hC hst.2⟩
  obtain ⟨st2, hst2, hpq, hbest, hpath⟩ :=
    loopGo_reach (stepB g P S) _ hInv fuel (initB g P S) r
      ⟨initB_BInv g P S, initB_mem g P S⟩ hrun
  constructor
  · intro c hc
    rcases hst2.1.bestOK with hb | ⟨c2, hb2, hne, hchain, hcost, hlabs⟩
    · rw [hbest] at hb; rw [hc] at hb; simp at hb
    · rw [hbest] at hb2
      rw [hc] at hb2
      simp only [Option.some.injEq] at hb2
      rw [← hpath]
      refine ⟨⟨hne, hchain, hst2.2.bestM, by rw [hlabs]⟩, by rw [hcost, hb2]⟩
  · intro hc
    rcases hst2.1.bestOK with hb | ⟨c2, hb2, _⟩
    · rw [← hpath]; exact hb.2
    · rw [hbest, hc] at hb2; simp at hb2

/-! ## Walk surgery: reversal, splitting and joining at a shared vertex -/

lemma chainB_append {g : Graph} :
    ∀ (p q : List String) (v : String), chainB g p = true →
      p.getLast? = some v → chainB g (v :: q) = true →
      chainB g (p ++ q) = true := by
  intro p
  induction p with
  | nil => intro q v _ h; simp at h
  | cons x t ih =>
    intro q v hch hlast hq
    match t with
    | [] =>
      simp only [List.getLast?_singleton, Option.some.injEq] at hlast
      subst hlast
      simpa using hq
    | y :: t2 =>
      rw [List.getLast?_cons_cons] at hlast
      have hch2 : chainB g (y :: t2) = true := by
        simp only [chainB, Bool.and_eq_true] at hch
        exact hch.2
      have hadj : decide (y ∈ nbrs g x) = true := by
        simp only [chainB, Bool.and_eq_true] at hch
        exact hch.1
      have := ih q v hch2 hlast hq
      simp only [List.cons_append] at this ⊢
      simp only [chainB, Bool.and_eq_true]
      exact ⟨hadj, by simpa using this⟩

lemma pathCost_append {g : Graph} :
    ∀ (p q : List String) (v : String), p.getLast? = some v →
      pathCost g (p ++ q) = pathCost g p + pathCost g (v :: q) := by
  intro p
  induction p with
  | nil => intro q v h; simp at h
  | cons x t ih =>
    intro q v hlast
    match t with
    | [] =>
      simp only [List.getLast?_singleton, Option.some.injEq] at hlast
      subst hlast
      simp [pathCost]
    | y :: t2 =>
      rw [List.getLast?_cons_cons] at hlast
      have := ih q v hlast
      simp only [List.cons_append, List.append_eq] at this ⊢
      have hcost : pathCost g (x :: y :: (t2 ++ q))
          = weight g x y + pathCost g (y :: (t2 ++ q)) := rfl
      have hcost2 : pathCost g (x :: y :: t2)
          = weight g x y + pathCost g (y :: t2) := rfl
      rw [hcost, hcost2, this]
      ring

lemma pathLabs_append (S : String → List String) (P : Finset String) :
    ∀ (p q : List String),
      pathLabs S P (p ++ q) = pathLabs S P p ∪ pathLabs S P q := by
  intro p
  induction p with
  | nil => intro q; simp [pathLabs]
  | cons x t ih =>
    intro q
    simp only [List.cons_append, List.append_eq, pathLabs, ih, Finset.union_assoc]

lemma pathLabs_of_mem (S : String → List String) (P : Finset String) :
    ∀ (p : List String) (v : String), v ∈ p →
      SFin S v ∩ P ⊆ pathLabs S P p := by
  intro p
  induction p with
  | nil => intro v h; simp at h
  | cons x t ih =>
    intro v hv
    rcases List.mem_cons.mp hv with h | h
    · subst h
      simp only [pathLabs]
      exact Finset.subset_union_left
    · refine subset_trans (ih v h) ?_
      simp only [pathLabs]
      exact Finset.subset_union_right

lemma pathLabs_mono (S : String → List String) (P : Finset String) :
    ∀ (p q : List String), (∀ v ∈ p, v ∈ q) →
      pathLabs S P p ⊆ pathLabs S P q := by
  intro p
  induction p with
  | nil => intro q _; simp [pathLabs]
  | cons x t ih =>
    intro q hpq
    simp only [pathLabs]
    refine Finset.union_subset ?_ ?_
    · exact pathLabs_of_mem S P q x (hpq x (List.mem_cons_self x t))
    · exact ih q (fun v hv => hpq v (List.mem_cons_of_mem x hv))

lemma chainB_reverse {g : Graph} (hS : SymmG g) :
    ∀ p : List String, chainB g p = true → chainB g p.reverse = true := by
  intro p
  induction p with
  | nil => intro _; simp [chainB]
  | cons x t ih =>
    intro hch
    match t with
    | [] => simp [chainB]
    | y :: t2 =>
      simp only [chainB, Bool.and_eq_true, decide_eq_true_eq] at hch
      have hrev : chainB g (y :: t2).reverse = true := ih hch.2
      have hlast : (y :: t2).reverse.getLast? = some y := by
        rw [List.getLast?_reverse]
        rfl
      have hadj : x ∈ nbrs g y := (hS x y).1.mp hch.1
      have := chainB_concat (y :: t2).reverse y x hrev hlast hadj
      simpa using this

lemma pathCost_reverse {g : Graph} (hS : SymmG g) :
    ∀ p : List String, pathCost g p.reverse = pathCost g p := by
  intro p
  induction p with
  | nil => rfl
  | cons x t ih =>
    match t with
    | [] => rfl
    | y :: t2 =>
      have hlast : (y :: t2).reverse.getLast? = some y := by
        rw [List.getLast?_reverse]
        rfl
      have hrc : (x :: y :: t2).reverse = (y :: t2).reverse ++ [x] := by
        simp
      rw [hrc, pathCost_concat _ y x hlast, ih]
      have : pathCost g (x :: y :: t2) = weight g x y + pathCost g (y :: t2) := rfl
      rw [this, (hS y x).2]
      ring

lemma pathLabs_reverse (S : String → List String) (P : Finset String) :
    ∀ p : List String, pathLabs S P p.reverse = pathLabs S P p := by
  intro p
  induction p with
  | nil => rfl
  | cons x t ih =>
    have h1 : (x :: t).reverse = t.reverse ++ [x] := by simp
    rw [h1, pathLabs_concat, ih]
    simp only [pathLabs]
    rw [Finset.union_comm]

lemma chainB_tail {g : Graph} : ∀ (x : String) (l : List String),
    chainB g (x :: l) = true → chainB g l = true := by
  intro x l h
  match l with
  | [] => rfl
  | y :: t =>
    simp only [chainB, Bool.and_eq_true] at h
    exact h.2

lemma chainB_of_append {g : Graph} : ∀ (p1 rest : List String),
    chainB g (p1 ++ rest) = true → chainB g rest = true := by
  intro p1
  induction p1 with
  | nil => intro rest h; simpa using h
  | cons a t ih =>
    intro rest h
    simp only [List.cons_append] at h
    exact ih rest (chainB_tail a _ h)

/-- From a walk through `v`, produce a walk ending at `v` over the same
vertex set (retrace the tail). -/
lemma walk_to_end {g : Graph} (hS : SymmG g) (p : List String) (v : String)
    (hne : p ≠ []) (hch : chainB g p = true) (hv : v ∈ p) :
    ∃ q, q ≠ [] ∧ chainB g q = true ∧ q.getLast? = some v ∧
      (∀ w ∈ p, w ∈ q) ∧ (∀ w ∈ q, w ∈ p) := by
  obtain ⟨p1, p2, hsplit⟩ := List.append_of_mem hv
  have hvp2 : chainB g (v :: p2) = true :=
    chainB_of_append p1 (v :: p2) (by rw [← hsplit]; exact hch)
  have hrev : chainB g (v :: p2).reverse = true := chainB_reverse hS _ hvp2
  match hrv : (v :: p2).reverse with
  | [] =>
    have := congrArg List.length hrv
    simp at this
  | z :: ys =>
    have hlastp : p.getLast? = some z := by
      rw [hsplit, List.getLast?_append_of_ne_nil _ (List.cons_ne_nil v p2),
        ← List.head?_reverse, hrv]
      rfl
    have hchainz : chainB g (z :: ys) = true := by rw [← hrv]; exact hrev
    refine ⟨p ++ ys, by simp [hne], chainB_append p ys z hch hlastp hchainz,
      ?_, fun w hw => List.mem_append.mpr (Or.inl hw), ?_⟩
    · cases hys : ys with
      | nil =>
        have hvp : v :: p2 = [z] := by
          have h2 := congrArg List.reverse hrv
          rw [List.reverse_reverse] at h2
          rw [hys] at h2
          simpa using h2
        have hvz : z = v := by
          simp only [List.cons.injEq] at hvp
          exact hvp.1.symm
        simp only [List.append_nil]
        rw [hlastp, hvz]
      | cons w ws =>
        rw [List.getLast?_append_of_ne_nil _ (List.cons_ne_nil w ws)]
        have h1 : (z :: w :: ws).getLast? = some v := by
          rw [← hys, ← hrv, List.getLast?_reverse]
          rfl
        rw [List.getLast?_cons_cons] at h1
        exact h1
    · intro w hw
      rcases List.mem_append.mp hw with h | h
      · exact h
      · have h2 : w ∈ z :: ys := List.mem_cons_of_mem z h
        rw [← hrv, List.mem_reverse] at h2
        rw [hsplit]
        exact List.mem_append.mpr (Or.inr h2)

/-- Two walks ending at the same vertex combine into one walk over the
union of their vertices whose cost is the sum of their costs. -/
lemma walks_combine {g : Graph} (hS : SymmG g) (q1 q2 : List String) (v : String)
    (h1ne : q1 ≠ []) (h1ch : chainB g q1 = true) (h1l : q1.getLast? = some v)
    (_h2ne : q2 ≠ []) (h2ch : chainB g q2 = true) (h2l : q2.getLast? = some v) :
    ∃ q, q ≠ [] ∧ chainB g q = true ∧
      pathCost g q = pathCost g q1 + pathCost g q2 ∧
      (∀ w ∈ q1, w ∈ q) ∧ (∀ w ∈ q2, w ∈ q) ∧ (∀ w ∈ q, w ∈ q1 ∨ w ∈ q2) := by
  have hrch : chainB g q2.reverse = true := chainB_reverse hS _ h2ch
  have hrhead : q2.reverse.head? = some v := by
    rw [List.head?_reverse]
    exact h2l
  match hrv : q2.reverse with
  | [] => rw [hrv] at hrhead; simp at hrhead
  | z :: ys =>
    have hzv : z = v := by
      rw [hrv] at hrhead
      simpa using hrhead
    have hrv2 : q2.reverse = v :: ys := by rw [← hzv]; exact hrv
    refine ⟨q1 ++ ys, by simp [h1ne], ?_, ?_, ?_, ?_, ?_⟩
    · refine chainB_append q1 ys v h1ch h1l ?_
      rw [← hrv2]
      exact hrch
    · rw [pathCost_append q1 ys v h1l, ← hrv2, pathCost_reverse hS]
    · intro w hw
      exact List.mem_append.mpr (Or.inl hw)
    · intro w hw
      have hwr : w ∈ v :: ys := by
        rw [← hrv2]
        exact List.mem_reverse.mpr hw
      rcases List.mem_cons.mp hwr with h | h
      · refine List.mem_append.mpr (Or.inl ?_)
        rw [h]
        exact List.mem_of_mem_getLast? (by rw [h1l]; exact Option.mem_some_iff.mpr rfl)
      · exact List.mem_append.mpr (Or.inr h)
    · intro w hw
      rcases List.mem_append.mp hw with h | h
      · exact Or.inl h
      · right
        have h2 : w ∈ v :: ys := List.mem_cons_of_mem v h
        rw [← hrv2] at h2
        exact List.mem_reverse.mp h2

/-! ## Existence invariant of `pruned_dp` (claim C6) -/

/-- The state `(v, L)` is witnessed by some walk of the graph through `v`
collecting at least `L`. -/
def WalkAt (g : Graph) (P : Finset String) (S : String → List String)
    (v : String) (L : Finset String) : Prop :=
  ∃ p, p ≠ [] ∧ chainB g p = true ∧ InG g p ∧ v ∈ p ∧ L ⊆ pathLabs S P p

lemma walkAt_extend {g : Graph} {P : Finset String} {S : String → List String}
    (hS : SymmG g) (hC : ClosedG g) {v u : String} {L : Finset String}
    (h : WalkAt g P S v L) (hu : u ∈ nbrs g v) :
    WalkAt g P S u (L ∪ (SFin S u ∩ P)) := by
  obtain ⟨p, hne, hch, hing, hv, hlab⟩ := h
  obtain ⟨q, hqne, hqch, hql, hpq, hqp⟩ := walk_to_end hS p v hne hch hv
  have huN : u ∈ g.nodes := hC v (hing v hv) u hu
  refine ⟨q ++ [u], by simp, chainB_concat q v u hqch hql hu, ?_, ?_, ?_⟩
  · intro w hw
    rcases List.mem_append.mp hw with h2 | h2
    · exact hing w (hqp w h2)
    · simp only [List.mem_singleton] at h2
      rw [h2]; exact huN
  · exact List.mem_append.mpr (Or.inr (List.mem_singleton.mpr rfl))
  · rw [pathLabs_concat]
    refine Finset.union_subset ?_ Finset.subset_union_right
    refine subset_trans hlab (subset_trans (pathLabs_mono S P p q hpq) ?_)
    exact Finset.subset_union_left

lemma walkAt_merge {g : Graph} {P : Finset String} {S : String → List String}
    (hS : SymmG g) {v : String} {L1 L2 : Finset String}
    (h1 : WalkAt g P S v L1) (h2 : WalkAt g P S v L2) :
    WalkAt g P S v (L1 ∪ L2) := by
  obtain ⟨p1, h1ne, h1ch, h1g, h1v, h1lab⟩ := h1
  obtain ⟨p2, h2ne, h2ch, h2g, h2v, h2lab⟩ := h2
  obtain ⟨q1, hq1ne, hq1ch, hq1l, hpq1, hqp1⟩ := walk_to_end hS p1 v h1ne h1ch h1v
  obtain ⟨q2, hq2ne, hq2ch, hq2l, hpq2, hqp2⟩ := walk_to_end hS p2 v h2ne h2ch h2v
  obtain ⟨q, hqne, hqch, _, hin1, hin2, hsub⟩ :=
    walks_combine hS q1 q2 v hq1ne hq1ch hq1l hq2ne hq2ch hq2l
  refine ⟨q, hqne, hqch, ?_, ?_, ?_⟩
  · intro w hw
    rcases hsub w hw with h3 | h3
    · exact h1g w (hqp1 w h3)
    · exact h2g w (hqp2 w h3)
  · exact hin1 v (List.mem_of_mem_getLast? (by rw [hq1l]; exact Option.mem_some_iff.mpr rfl))
  · refine Finset.union_subset ?_ ?_
    · exact subset_trans h1lab (subset_trans (pathLabs_mono S P p1 q1 hpq1)
        (pathLabs_mono S P q1 q hin1))
    · exact subset_trans h2lab (subset_trans (pathLabs_mono S P p2 q2 hpq2)
        (pathLabs_mono S P q2 q hin2))

/-- Existence invariant of the `pruned_dp` loop: every tracked state is
witnessed by a real walk, and a finite best cost implies a covering walk
exists. -/
structure PExInv (g : Graph) (P : Finset String) (S : String → List String)
    (st : LoopState) : Prop where
  ent : ∀ x ∈ st.pq, WalkAt g P S x.vertex x.labels
  vis : ∀ it ∈ st.visited, WalkAt g P S it.1.1 it.1.2
  bestE : ∀ q, st.best = some q → ∃ p, CoverWalk g P S p
  bestN : st.best = none → st.bestPath = []

lemma relaxP_pex {g : Graph} {P : Finset String} {S : String → List String}
    {e : Entry} (hS : SymmG g) (hC : ClosedG g)
    (he : WalkAt g P S e.vertex e.labels) (st : LoopState)
    (h : PExInv g P S st) : PExInv g P S (relaxP g P S e st) := by
  unfold relaxP
  refine foldl_preserves (PExInv g P S) _ (nbrs g e.vertex)
    (fun acc u hu hacc => ?_) st h
  unfold relaxBodyP
  dsimp only
  split
  · exact hacc
  · split
    · refine ⟨fun x hx => ?_, fun it hit => ?_, hacc.bestE, hacc.bestN⟩
      · rcases mem_heappush.mp hx with h2 | h2
        · subst h2
          exact walkAt_extend hS hC he hu
        · exact hacc.ent x h2
      · rcases vSet_mem _ _ _ it hit with h2 | h2
        · subst h2
          exact walkAt_extend hS hC he hu
        · exact hacc.vis it h2
    · exact hacc

lemma mergeF_pex {g : Graph} {P : Finset String} {S : String → List String}
    {e : Entry} {snapshot : Visited} (hS : SymmG g)
    (he : WalkAt g P S e.vertex e.labels)
    (hsnap : ∀ it ∈ snapshot, WalkAt g P S it.1.1 it.1.2) (st : LoopState)
    (h : PExInv g P S st) : PExInv g P S (mergeF P e snapshot st) := by
  unfold mergeF
  refine foldl_preserves (PExInv g P S) _ snapshot
    (fun acc it hit hacc => ?_) st h
  unfold mergeBody
  dsimp only
  split
  · rename_i hcond
    split
    · have hitW : WalkAt g P S e.vertex it.1.2 := by
        have := hsnap it hit
        rw [hcond.1] at this
        exact this
      have hmerged : WalkAt g P S e.vertex (e.labels ∪ it.1.2) :=
        walkAt_merge hS he hitW
      refine ⟨fun x hx => ?_, fun it2 hit2 => ?_, hacc.bestE, hacc.bestN⟩
      · rcases mem_heappush.mp hx with h2 | h2
        · subst h2
          exact hmerged
        · exact hacc.ent x h2
      · rcases vSet_mem _ _ _ it2 hit2 with h2 | h2
        · subst h2
          exact hmerged
        · exact hacc.vis it2 h2
    · exact hacc
  · exact hacc

lemma stepP_pex (g : Graph) (P : Finset String) (S : String → List String)
    (st : LoopState) (hS : SymmG g) (hC : ClosedG g) (h : PExInv g P S st) :
    PExInv g P S (stepP g P S st) := by
  refine stepP_cases g P S st (PExInv g P S) ?_ ?_ ?_ ?_ ?_ ?_ ?_
  · intro _; exact h
  all_goals intro e rest hpop
  all_goals
    have hperm := heappop_perm pyLt st.pq rest e hpop
    have heW := h.ent e (hperm.mem_iff.mpr (List.mem_cons_self e rest))
    have hrest : ∀ x ∈ rest, WalkAt g P S x.vertex x.labels :=
      fun x hx => h.ent x (hperm.mem_iff.mpr (List.mem_cons_of_mem e hx))
  · intro _; exact ⟨hrest, h.vis, h.bestE, h.bestN⟩
  · intro _ _; exact ⟨hrest, h.vis, h.bestE, h.bestN⟩
  · intro _ _ hcov _
    refine ⟨hrest, h.vis, fun q hq => ?_, by simp⟩
    obtain ⟨p, hne, hch, hing, _, hlab⟩ := heW
    exact ⟨p, hne, hch, hing, subset_trans hcov hlab⟩
  · intro _ _ _ _; exact ⟨hrest, h.vis, h.bestE, h.bestN⟩
  · intro _ _ _ _; exact ⟨hrest, h.vis, h.bestE, h.bestN⟩
  · intro _ _ _ _
    have h1 : PExInv g P S (relaxP g P S e { st with pq := rest }) :=
      relaxP_pex hS hC heW _ ⟨hrest, h.vis, h.bestE, h.bestN⟩
    exact mergeF_pex hS heW h1.vis _ h1

lemma seedsP_pex (g : Graph) (P : Finset String) (S : String → List String) :
    PExInv g P S (seedsP g P S) := by
  unfold seedsP
  refine foldl_preserves (PExInv g P S) _ g.nodes (fun acc v hv hacc => ?_)
    ⟨none, [], [], []⟩ ⟨by simp, by simp, by simp, by simp⟩
  refine foldl_preserves (PExInv g P S) _ _ (fun acc2 lbl hlbl hacc2 => ?_) acc hacc
  unfold seedBodyP
  dsimp only
  split
  · exact hacc2
  · have hlblP : lbl ∈ S v ∧ lbl ∈ P := by
      have := List.mem_filter.mp hlbl
      exact ⟨this.1, by simpa using this.2⟩
    have hseedW : WalkAt g P S v {lbl} := by
      refine ⟨[v], by simp, by simp [chainB], ?_, by simp, ?_⟩
      · intro w hw
        simp only [List.mem_singleton] at hw
        rw [hw]; exact hv
      · intro l hl
        simp only [Finset.mem_singleton] at hl
        subst hl
        simp only [pathLabs, Finset.union_empty]
        exact Finset.mem_inter.mpr ⟨by simp [SFin, hlblP.1], hlblP.2⟩
    refine ⟨fun x hx => ?_, fun it hit => ?_, hacc2.bestE, hacc2.bestN⟩
    · rcases mem_heappush.mp hx with h2 | h2
      · subst h2; exact hseedW
      · exact hacc2.ent x h2
    · rcases vSet_mem _ _ _ it hit with h2 | h2
      · subst h2; exact hseedW
      · exact hacc2.vis it h2

/-- After a completed `pruned_dp` run on a symmetric closed graph, a
finite cost implies a covering walk exists, and an infinite cost comes
with the empty path. -/
lemma pruned_ex_final (fuel : Nat) (g : Graph) (P : Finset String)
    (S : String → List String) (r : Option ℚ × List String)
    (hS : SymmG g) (hC : ClosedG g) (hrun : pruned_dp fuel g P S = some r) :
    (∀ q, r.1 = some q → ∃ p, CoverWalk g P S p) ∧ (r.1 = none → r.2 = []) := by
  obtain ⟨st2, hst2, _, hbest, hpath⟩ :=
    loopGo_reach (stepP g P S) (PExInv g P S)
      (fun st h => stepP_pex g P S st hS hC h) fuel (seedsP g P S) r
      (seedsP_pex g P S) hrun
  constructor
  · intro q hq
    exact hst2.bestE q (by rw [hbest, hq])
  · intro hq
    rw [← hpath]
    exact hst2.bestN (by rw [hbest, hq])

/-! ## Cost soundness of `pruned_dp` for queries of at most two labels
(claim C2, amended) -/

/-- A pure entry: its stored path is a real walk ending at its vertex at
exactly its cost, collecting at least its labels. -/
def PureEnt (g : Graph) (P : Finset String) (S : String → List String)
    (x : Entry) : Prop :=
  x.path ≠ [] ∧ chainB g x.path = true ∧ InG g x.path ∧
    x.path.getLast? = some x.vertex ∧ pathCost g x.path = x.cost ∧
    x.labels ⊆ pathLabs S P x.path

/-- A walk ending at `v` with cost at most `c` collecting `L`. -/
def EndWalk (g : Graph) (P : Finset String) (S : String → List String)
    (v : String) (L : Finset String) (c : ℚ) : Prop :=
  ∃ p, p ≠ [] ∧ chainB g p = true ∧ InG g p ∧ p.getLast? = some v ∧
    pathCost g p ≤ c ∧ L ⊆ pathLabs S P p

/-- A covering walk of cost at most `c` exists. -/
def CoverC (g : Graph) (P : Finset String) (S : String → List String)
    (c : ℚ) : Prop :=
  ∃ p, CoverWalk g P S p ∧ pathCost g p ≤ c

lemma expand_card {P L : Finset String} (hP2 : P.card ≤ 2) (hsub : L ⊆ P)
    (hne : L ≠ ∅) (hnc : ¬ P ⊆ L) : L.card = 1 ∧ P.card = 2 := by
  have h1 : 1 ≤ L.card := Finset.card_pos.mpr (Finset.nonempty_iff_ne_empty.mpr hne)
  have hlt : L.card < P.card := by
    rcases lt_or_eq_of_le (Finset.card_le_card hsub) with h | h
    · exact h
    · exact absurd (le_of_eq (Finset.eq_of_subset_of_card_le hsub (le_of_eq h.symm)).symm)
        hnc
  omega

lemma pureEnt_relax {g : Graph} {P : Finset String} {S : String → List String}
    {e : Entry} (hC : ClosedG g) (he : PureEnt g P S e) {u : String}
    (hu : u ∈ nbrs g e.vertex) :
    PureEnt g P S ⟨e.cost + weight g e.vertex u, u,
      e.labels ∪ (SFin S u ∩ P), e.path ++ [u]⟩ := by
  obtain ⟨h1, h2, h3, h4, h5, h6⟩ := he
  have hvN : e.vertex ∈ g.nodes :=
    h3 e.vertex (List.mem_of_mem_getLast? (by rw [h4]; exact Option.mem_some_iff.mpr rfl))
  have huN : u ∈ g.nodes := hC e.vertex hvN u hu
  refine ⟨by simp, chainB_concat e.path e.vertex u h2 h4 hu, ?_,
    by simp [List.getLast?_concat], ?_, ?_⟩
  · intro w hw
    rcases List.mem_append.mp hw with hh | hh
    · exact h3 w hh
    · simp only [List.mem_singleton] at hh
      rw [hh]; exact huN
  · rw [pathCost_concat e.path e.vertex u h4, h5]
  · rw [pathLabs_concat]
    exact Finset.union_subset_union h6 (subset_refl _)

/-- Invariant of the `pruned_dp` loop for `P.card ≤ 2`: singleton states
are pure walk states, covering states are bounded below by some covering
walk, and the best cost always dominates a covering walk. -/
structure P2Inv (g : Graph) (P : Finset String) (S : String → List String)
    (st : LoopState) : Prop where
  entL : ∀ x ∈ st.pq, x.labels ⊆ P ∧ x.labels ≠ ∅
  visL : ∀ it ∈ st.visited, it.1.2 ⊆ P ∧ it.1.2 ≠ ∅
  entP : ∀ x ∈ st.pq, x.labels.card = 1 → PureEnt g P S x
  entC : ∀ x ∈ st.pq, x.labels = P → CoverC g P S x.cost
  visP : ∀ it ∈ st.visited, it.1.2.card = 1 → EndWalk g P S it.1.1 it.1.2 it.2
  visC : ∀ it ∈ st.visited, it.1.2 = P → CoverC g P S it.2
  bestC : ∀ q, st.best = some q → CoverC g P S q

lemma relaxP_p2 {g : Graph} {P : Finset String} {S : String → List String}
    {e : Entry} (hC : ClosedG g) (hePure : PureEnt g P S e)
    (heL : e.labels ⊆ P ∧ e.labels ≠ ∅) (st : LoopState)
    (h : P2Inv g P S st) : P2Inv g P S (relaxP g P S e st) := by
  unfold relaxP
  refine foldl_preserves (P2Inv g P S) _ (nbrs g e.vertex)
    (fun acc u hu hacc => ?_) st h
  unfold relaxBodyP
  dsimp only
  split
  · exact hacc
  · split
    · have hnew := pureEnt_relax hC hePure hu
      have hnewC : e.labels ∪ (SFin S u ∩ P) = P →
          CoverC g P S (e.cost + weight g e.vertex u) := by
        intro hP
        obtain ⟨p1, p2, p3, p4, p5, p6⟩ := hnew
        have p6b : e.labels ∪ (SFin S u ∩ P) ⊆ pathLabs S P (e.path ++ [u]) := p6
        have p6c : P ⊆ pathLabs S P (e.path ++ [u]) := by
          intro x hx
          apply p6b
          rw [hP]
          exact hx
        exact ⟨e.path ++ [u], ⟨p1, p2, p3, p6c⟩, le_of_eq p5⟩
      refine ⟨fun x hx => ?_, fun it hit => ?_, fun x hx => ?_, fun x hx => ?_,
        fun it hit => ?_, fun it hit => ?_, hacc.bestC⟩
      · rcases mem_heappush.mp hx with h2 | h2
        · subst h2
          exact ⟨Finset.union_subset heL.1 Finset.inter_subset_right, by
            intro hcon
            apply heL.2
            exact Finset.union_eq_empty.mp hcon |>.1⟩
        · exact hacc.entL x h2
      · rcases vSet_mem _ _ _ it hit with h2 | h2
        · subst h2
          exact ⟨Finset.union_subset heL.1 Finset.inter_subset_right, by
            intro hcon
            apply heL.2
            exact Finset.union_eq_empty.mp hcon |>.1⟩
        · exact hacc.visL it h2
      · rcases mem_heappush.mp hx with h2 | h2
        · subst h2
          intro _
          exact hnew
        · exact hacc.entP x h2
      · rcases mem_heappush.mp hx with h2 | h2
        · subst h2
          intro hP
          exact hnewC hP
        · exact hacc.entC x h2
      · rcases vSet_mem _ _ _ it hit with h2 | h2
        · subst h2
          intro _
          obtain ⟨p1, p2, p3, p4, p5, p6⟩ := hnew
          exact ⟨e.path ++ [u], p1, p2, p3, p4, le_of_eq p5, p6⟩
        · exact hacc.visP it h2
      · rcases vSet_mem _ _ _ it hit with h2 | h2
        · subst h2
          intro hP
          exact hnewC hP
        · exact hacc.visC it h2
    · exact hacc

lemma mergeF_p2 {g : Graph} {P : Finset String} {S : String → List String}
    {e : Entry} {snapshot : Visited} (hS : SymmG g)
    (hP2c : P.card = 2) (heC : e.labels.card = 1)
    (hePure : PureEnt g P S e) (heL : e.labels ⊆ P)
    (hsnapP : ∀ it ∈ snapshot, it.1.2.card = 1 →
      EndWalk g P S it.1.1 it.1.2 it.2) (st : LoopState)
    (h : P2Inv g P S st) : P2Inv g P S (mergeF P e snapshot st) := by
  unfold mergeF
  refine foldl_preserves (P2Inv g P S) _ snapshot
    (fun acc it hit hacc => ?_) st h
  unfold mergeBody
  dsimp only
  split
  · rename_i hcond
    split
    · -- a combined state (e.vertex, e.labels ∪ it.1.2) is pushed
      have hrem : (P \ e.labels).card = 1 := by
        rw [Finset.card_sdiff heL, hP2c, heC]
      have hit2 : it.1.2 = P \ e.labels := by
        refine Finset.eq_of_subset_of_card_le hcond.2.1 ?_
        rw [hrem]
        exact Finset.card_pos.mpr (Finset.nonempty_iff_ne_empty.mpr hcond.2.2)
      have hitcard : it.1.2.card = 1 := by rw [hit2, hrem]
      have hunion : e.labels ∪ it.1.2 = P := by
        rw [hit2]
        exact Finset.union_sdiff_of_subset heL
      obtain ⟨q2, hq2ne, hq2ch, hq2g, hq2l, hq2c, hq2lab⟩ := hsnapP it hit hitcard
      obtain ⟨e1, e2, e3, e4, e5, e6⟩ := hePure
      have hq2l2 : q2.getLast? = some e.vertex := by rw [hq2l, hcond.1]
      obtain ⟨q, hqne, hqch, hqcost, hin1, hin2, hsub⟩ :=
        walks_combine hS e.path q2 e.vertex e1 e2 e4 hq2ne hq2ch hq2l2
      have hqInG : InG g q := by
        intro w hw
        rcases hsub w hw with hh | hh
        · exact e3 w hh
        · exact hq2g w hh
      have hqCov : CoverC g P S (e.cost + it.2) := by
        have hbig : e.labels ∪ it.1.2 ⊆ pathLabs S P q := by
          refine Finset.union_subset ?_ ?_
          · exact subset_trans e6 (pathLabs_mono S P e.path q hin1)
          · exact subset_trans hq2lab (pathLabs_mono S P q2 q hin2)
        refine ⟨q, ⟨hqne, hqch, hqInG, hunion ▸ hbig⟩, ?_⟩
        rw [hqcost, e5]
        linarith
      have hcard2 : (e.labels ∪ it.1.2).card = 2 := by rw [hunion, hP2c]
      refine ⟨fun x hx => ?_, fun it2 hit2m => ?_, fun x hx => ?_,
        fun x hx => ?_, fun it2 hit2m => ?_, fun it2 hit2m => ?_, hacc.bestC⟩
      · rcases mem_heappush.mp hx with h2 | h2
        · subst h2
          constructor
          · show e.labels ∪ it.1.2 ⊆ P
            rw [hunion]
          · show e.labels ∪ it.1.2 ≠ ∅
            rw [hunion]
            intro hPe
            rw [hPe] at hP2c
            simp at hP2c
        · exact hacc.entL x h2
      · rcases vSet_mem _ _ _ it2 hit2m with h2 | h2
        · subst h2
          constructor
          · show e.labels ∪ it.1.2 ⊆ P
            rw [hunion]
          · show e.labels ∪ it.1.2 ≠ ∅
            rw [hunion]
            intro hPe
            rw [hPe] at hP2c
            simp at hP2c
        · exact hacc.visL it2 h2
      · rcases mem_heappush.mp hx with h2 | h2
        · subst h2
          intro hone
          have h3 : (e.labels ∪ it.1.2).card = 1 := hone
          omega
        · exact hacc.entP x h2
      · rcases mem_heappush.mp hx with h2 | h2
        · subst h2
          intro _
          exact hqCov
        · exact hacc.entC x h2
      · rcases vSet_mem _ _ _ it2 hit2m with h2 | h2
        · subst h2
          intro hone
          have h3 : (e.labels ∪ it.1.2).card = 1 := hone
          omega
        · exact hacc.visP it2 h2
      · rcases vSet_mem _ _ _ it2 hit2m with h2 | h2
        · subst h2
          intro _
          exact hqCov
        · exact hacc.visC it2 h2
    · exact hacc
  · exact hacc

lemma stepP_p2 (g : Graph) (P : Finset String) (S : String → List String)
    (st : LoopState) (hP2 : P.card ≤ 2) (hS : SymmG g) (hC : ClosedG g)
    (h : P2Inv g P S st) : P2Inv g P S (stepP g P S st) := by
  refine stepP_cases g P S st (P2Inv g P S) ?_ ?_ ?_ ?_ ?_ ?_ ?_
  · intro _; exact h
  all_goals intro e rest hpop
  all_goals
    have hperm := heappop_perm pyLt st.pq rest e hpop
    have hmem : e ∈ st.pq := hperm.mem_iff.mpr (List.mem_cons_self e rest)
    have hrestF : ∀ x ∈ rest, x ∈ st.pq :=
      fun x hx => hperm.mem_iff.mpr (List.mem_cons_of_mem e hx)
    have hkeep : P2Inv g P S { st with pq := rest } :=
      ⟨fun x hx => h.entL x (hrestF x hx), h.visL,
        fun x hx => h.entP x (hrestF x hx), fun x hx => h.entC x (hrestF x hx),
        h.visP, h.visC, h.bestC⟩
  · intro _; exact hkeep
  · intro _ _; exact hkeep
  · intro _ _ hcov _
    have hlabP : e.labels = P :=
      Finset.Subset.antisymm (h.entL e hmem).1 hcov
    have hcc : CoverC g P S e.cost := h.entC e hmem hlabP
    exact ⟨hkeep.entL, hkeep.visL, hkeep.entP, hkeep.entC, hkeep.visP,
      hkeep.visC, fun q hq => by
        simp only [Option.some.injEq] at hq
        rw [← hq]
        exact hcc⟩
  · intro _ _ _ _; exact hkeep
  · intro _ _ _ _; exact hkeep
  · intro _ _ hnc _
    have heL := h.entL e hmem
    obtain ⟨hone, hPc⟩ := expand_card hP2 heL.1 heL.2 hnc
    have hePure : PureEnt g P S e := h.entP e hmem hone
    have h1 : P2Inv g P S (relaxP g P S e { st with pq := rest }) :=
      relaxP_p2 hC hePure heL _ hkeep
    exact mergeF_p2 hS hPc hone hePure heL.1 h1.visP _ h1

lemma seedsP_p2 (g : Graph) (P : Finset String) (S : String → List String) :
    P2Inv g P S (seedsP g P S) := by
  unfold seedsP
  refine foldl_preserves (P2Inv g P S) _ g.nodes (fun acc v hv hacc => ?_)
    ⟨none, [], [], []⟩
    ⟨by simp, by simp, by simp, by simp, by simp, by simp, by simp⟩
  refine foldl_preserves (P2Inv g P S) _ _ (fun acc2 lbl hlbl hacc2 => ?_) acc hacc
  unfold seedBodyP
  dsimp only
  split
  · exact hacc2
  · have hlblP : lbl ∈ S v ∧ lbl ∈ P := by
      have := List.mem_filter.mp hlbl
      exact ⟨this.1, by simpa using this.2⟩
    have hlabs : ({lbl} : Finset String) ⊆ pathLabs S P [v] := by
      intro l hl
      simp only [Finset.mem_singleton] at hl
      subst hl
      simp only [pathLabs, Finset.union_empty]
      exact Finset.mem_inter.mpr ⟨by simp [SFin, hlblP.1], hlblP.2⟩
    have hpure : PureEnt g P S ⟨0, v, {lbl}, [v]⟩ := by
      refine ⟨by simp, by simp [chainB], ?_, by simp, by simp [pathCost], hlabs⟩
      intro w hw
      simp only [List.mem_singleton] at hw
      rw [hw]; exact hv
    have hcov : ({lbl} : Finset String) = P → CoverC g P S 0 := by
      intro hP
      refine ⟨[v], ⟨by simp, by simp [chainB], ?_, ?_⟩, by simp [pathCost]⟩
      · intro w hw
        simp only [List.mem_singleton] at hw
        rw [hw]; exact hv
      · intro x hx
        apply hlabs
        rw [hP]
        exact hx
    refine ⟨fun x hx => ?_, fun it hit => ?_, fun x hx => ?_, fun x hx => ?_,
      fun it hit => ?_, fun it hit => ?_, hacc2.bestC⟩
    · rcases mem_heappush.mp hx with h2 | h2
      · subst h2
        exact ⟨Finset.singleton_subset_iff.mpr hlblP.2, by simp⟩
      · exact hacc2.entL x h2
    · rcases vSet_mem _ _ _ it hit with h2 | h2
      · subst h2
        exact ⟨Finset.singleton_subset_iff.mpr hlblP.2, by simp⟩
      · exact hacc2.visL it h2
    · rcases mem_heappush.mp hx with h2 | h2
      · subst h2
        intro _
        exact hpure
      · exact hacc2.entP x h2
    · rcases mem_heappush.mp hx with h2 | h2
      · subst h2
        intro hP
        exact hcov hP
      · exact hacc2.entC x h2
    · rcases vSet_mem _ _ _ it hit with h2 | h2
      · subst h2
        intro _
        obtain ⟨p1, p2, p3, p4, p5, p6⟩ := hpure
        exact ⟨[v], p1, p2, p3, p4, le_of_eq p5, p6⟩
      · exact hacc2.visP it h2
    · rcases vSet_mem _ _ _ it hit with h2 | h2
      · subst h2
        intro hP
        exact hcov hP
      · exact hacc2.visC it h2

/-- After a completed `pruned_dp` run with at most two query labels on a
symmetric closed graph, a finite reported cost dominates some covering
walk. -/
lemma pruned_cover_final (fuel : Nat) (g : Graph) (P : Finset String)
    (S : String → List String) (r : Option ℚ × List String)
    (hP2 : P.card ≤ 2) (hS : SymmG g) (hC : ClosedG g)
    (hrun : pruned_dp fuel g P S = some r) :
    ∀ q, r.1 = some q → CoverC g P S q := by
  obtain ⟨st2, hst2, _, hbest, _⟩ :=
    loopGo_reach (stepP g P S) (P2Inv g P S)
      (fun st h => stepP_p2 g P S st hP2 hS hC h) fuel (seedsP g P S) r
      (seedsP_p2 g P S) hrun
  intro q hq
  exact hst2.bestC q (by rw [hbest, hq])

/-! ## Run-level corollaries -/

lemma basic_NN_run (fuel : Nat) (g : Graph) (P : Finset String)
    (S : String → List String) (r : Option ℚ × List String)
    (hNN : NonNegW g) (hrun : basic fuel g P S = some r) :
    ∀ q, r.1 = some q → 0 ≤ q := by
  obtain ⟨st2, hst2, _, hbest, _⟩ :=
    loopGo_reach (stepB g P S) NNInv (fun st h => stepB_NN g P S st hNN h)
      fuel (initB g P S) r (initB_NN g P S) hrun
  intro q hq
  exact hst2.bestNN q (by rw [hbest, hq])

lemma pruned_NN_run (fuel : Nat) (g : Graph) (P : Finset String)
    (S : String → List String) (r : Option ℚ × List String)
    (hNN : NonNegW g) (hrun : pruned_dp fuel g P S = some r) :
    ∀ q, r.1 = some q → 0 ≤ q := by
  obtain ⟨st2, hst2, _, hbest, _⟩ :=
    loopGo_reach (stepP g P S) NNInv (fun st h => stepP_NN g P S st hNN h)
      fuel (seedsP g P S) r (seedsP_NN g P S) hrun
  intro q hq
  exact hst2.bestNN q (by rw [hbest, hq])

lemma weight_pos {g : Graph} (hP : PosW g) {v u : String}
    (hu : u ∈ nbrs g v) : 0 < weight g v u := by
  unfold weight
  match hf : (g.adj v).find? (fun pr => pr.1 == u) with
  | none =>
    exfalso
    obtain ⟨pr, hpr, hfst⟩ := List.mem_map.mp hu
    have := List.find?_eq_none.mp hf pr hpr
    simp [hfst] at this
  | some pr =>
    rw [hf]
    exact hP v pr (List.mem_of_find?_eq_some hf)

/-- With strictly positive weights, a zero-cost chain is a single vertex. -/
lemma zero_cost_single {g : Graph} (hP : PosW g) :
    ∀ p : List String, p ≠ [] → chainB g p = true → pathCost g p = 0 →
      ∃ v, p = [v] := by
  intro p hne hch hcost
  match p with
  | [v] => exact ⟨v, rfl⟩
  | v :: u :: rest =>
    exfalso
    simp only [chainB, Bool.and_eq_true, decide_eq_true_eq] at hch
    have hw := weight_pos hP hch.1
    have h2 : pathCost g (v :: u :: rest) = weight g v u + pathCost g (u :: rest) := rfl
    have h3 : 0 ≤ pathCost g (u :: rest) := by
      have hNN : NonNegW g := fun v2 pr hpr => le_of_lt (hP v2 pr hpr)
      exact pathCost_nonneg hNN (u :: rest)
    rw [h2] at hcost
    linarith

/-! ## Concrete instances for witnesses and counterexamples -/

set_option maxRecDepth 200000

/-- Two vertices joined by a unit edge, each carrying one query label. -/
def gTwo : Graph where
  nodes := ["a", "b"]
  adj := fun v => if v = "a" then [("b", 1)] else if v = "b" then [("a", 1)] else []

def STwo : String → List String := fun v =>
  if v = "a" then ["x"] else if v = "b" then ["y"] else []

def PTwo : Finset String := {"x", "y"}

/-- A three-leaf star with unit edges; each leaf carries one query label. -/
def gStar : Graph where
  nodes := ["c", "p", "q", "r"]
  adj := fun v =>
    if v = "c" then [("p", 1), ("q", 1), ("r", 1)]
    else if v = "p" then [("c", 1)]
    else if v = "q" then [("c", 1)]
    else if v = "r" then [("c", 1)]
    else []

def SStar : String → List String := fun v =>
  if v = "p" then ["x"] else if v = "q" then ["y"] else if v = "r" then ["z"] else []

def PStar : Finset String := {"x", "y", "z"}

/-- A zero-weight edge `a — b` plus an isolated vertex `z` carrying both
query labels. -/
def gZero : Graph where
  nodes := ["a", "b", "z"]
  adj := fun v =>
    if v = "a" then [("b", 0)] else if v = "b" then [("a", 0)] else []

def SZero : String → List String := fun v =>
  if v = "a" then ["x"] else if v = "b" then ["y"]
  else if v = "z" then ["x", "y"] else []

def PZero : Finset String := {"x", "y"}

/-- A single isolated vertex. -/
def gOne : Graph where
  nodes := ["a"]
  adj := fun _ => []

/-- No labels anywhere. -/
def SOne : String → List String := fun _ => []

/-- Both query labels on the single vertex `a`. -/
def SCov : String → List String := fun v => if v = "a" then ["x", "y"] else []

/-- A state whose queue is empty: one loop iteration leaves it unchanged. -/
def stC7 : LoopState := ⟨none, [], [(("a", {"x"}), 5)], []⟩

/-- A state about to pop a live non-covering entry of cost 5/2 against an
incumbent of 3: the 2/3 prune fires. -/
def stC8 : LoopState :=
  ⟨some 3, ["q", "c"], [(("a", ∅), 5 / 2)], [⟨5 / 2, "a", ∅, ["a"]⟩]⟩

/-- An expanding entry at `c` holding label `x` via the walk `p, c`. -/
def eC9 : Entry := ⟨1, "c", {"x"}, ["p", "c"]⟩

/-- A snapshot holding a partner state at `c` with label `y` and cost 1. -/
def snapC9 : Visited := [(("c", {"y"}), 1)]

def stC9 : LoopState := ⟨none, [], snapC9, []⟩

lemma gTwo_NN : NonNegW gTwo := by
  intro v pr hpr
  simp only [gTwo] at hpr
  split at hpr
  · simp only [List.mem_singleton] at hpr
    rw [hpr]
    norm_num
  · split at hpr
    · simp only [List.mem_singleton] at hpr
      rw [hpr]
      norm_num
    · simp at hpr

lemma gTwo_closed : ClosedG gTwo := by
  show ∀ v ∈ gTwo.nodes, ∀ u ∈ nbrs gTwo v, u ∈ gTwo.nodes
  with_unfolding_all decide

lemma gTwo_adj_a : gTwo.adj "a" = [("b", 1)] := by with_unfolding_all decide

lemma gTwo_adj_b : gTwo.adj "b" = [("a", 1)] := by with_unfolding_all decide

lemma gTwo_adj_other {w : String} (hwa : w ≠ "a") (hwb : w ≠ "b") :
    gTwo.adj w = [] := by
  simp [gTwo, hwa, hwb]

lemma nbrs_gTwo_other {w : String} (hwa : w ≠ "a") (hwb : w ≠ "b") :
    nbrs gTwo w = [] := by
  simp [nbrs, gTwo_adj_other hwa hwb]

lemma weight_gTwo_other {w : String} (hwa : w ≠ "a") (hwb : w ≠ "b")
    (z : String) : weight gTwo w z = 0 := by
  simp [weight, gTwo_adj_other hwa hwb]

lemma weight_gTwo_a {u : String} (hub : u ≠ "b") : weight gTwo "a" u = 0 := by
  unfold weight
  rw [gTwo_adj_a,
    List.find?_cons_of_neg _ (by simp only [beq_iff_eq]; exact Ne.symm hub),
    List.find?_nil]

lemma weight_gTwo_b {u : String} (hua : u ≠ "a") : weight gTwo "b" u = 0 := by
  unfold weight
  rw [gTwo_adj_b,
    List.find?_cons_of_neg _ (by simp only [beq_iff_eq]; exact Ne.symm hua),
    List.find?_nil]

lemma gTwo_symm : SymmG gTwo := by
  intro v u
  by_cases hva : v = "a"
  · subst hva
    by_cases hua : u = "a"
    · subst hua
      exact ⟨Iff.rfl, rfl⟩
    · by_cases hub : u = "b"
      · subst hub
        exact ⟨by with_unfolding_all decide, by with_unfolding_all decide⟩
      · constructor
        · rw [nbrs_gTwo_other hua hub]
          simp [nbrs, gTwo_adj_a, hub]
        · rw [weight_gTwo_a hub, weight_gTwo_other hua hub]
  · by_cases hvb : v = "b"
    · subst hvb
      by_cases hua : u = "a"
      · subst hua
        exact ⟨by with_unfolding_all decide, by with_unfolding_all decide⟩
      · by_cases hub : u = "b"
        · subst hub
          exact ⟨Iff.rfl, rfl⟩
        · constructor
          · rw [nbrs_gTwo_other hua hub]
            simp [nbrs, gTwo_adj_b, hua]
          · rw [weight_gTwo_b hua, weight_gTwo_other hua hub]
    · constructor
      · rw [nbrs_gTwo_other hva hvb]
        by_cases hua : u = "a"
        · subst hua
          simp [nbrs, gTwo_adj_a, hvb]
        · by_cases hub : u = "b"
          · subst hub
            simp [nbrs, gTwo_adj_b, hva]
          · rw [nbrs_gTwo_other hua hub]
            simp
      · rw [weight_gTwo_other hva hvb]
        by_cases hua : u = "a"
        · subst hua
          rw [weight_gTwo_a hvb]
        · by_cases hub : u = "b"
          · subst hub
            rw [weight_gTwo_b hva]
          · rw [weight_gTwo_other hua hub]

lemma gOne_pos : PosW gOne := by
  intro v pr hpr
  simp [gOne] at hpr

lemma gOne_closed : ClosedG gOne := by
  show ∀ v ∈ gOne.nodes, ∀ u ∈ nbrs gOne v, u ∈ gOne.nodes
  with_unfolding_all decide

lemma gOne_symm : SymmG gOne := by
  intro v u
  simp [nbrs, weight, gOne]

lemma pathLabs_SOne (P : Finset String) : ∀ p, pathLabs SOne P p = ∅ := by
  intro p
  induction p with
  | nil => rfl
  | cons v rest ih => simp [pathLabs, ih, SFin, SOne]

lemma noCover_gOne : ∀ p, ¬ CoverWalk gOne PTwo SOne p := by
  rintro p ⟨hne, hch, hg, hcov⟩
  rw [pathLabs_SOne] at hcov
  have hx : "x" ∈ PTwo := by decide
  exact absurd (hcov hx) (Finset.not_mem_empty _)

/-! ## The claims -/

/-- C1: on a graph with non-negative weights whose neighbor lists stay
inside the node list, a completed run of `basic` returns a cost that is a
lower bound on the total weight of every label-covering walk, and when that
cost is finite the returned path is itself a covering walk attaining it:
the returned cost is the minimum cost over all covering walks. -/
theorem claim_C1 (fuel : Nat) (g : Graph) (P : Finset String)
    (S : String → List String) (r : Option ℚ × List String)
    (hNN : NonNegW g) (hC : ClosedG g) (hrun : basic fuel g P S = some r) :
    (∀ p, CoverWalk g P S p → ∃ qb, r.1 = some qb ∧ qb ≤ pathCost g p) ∧
    (∀ c, r.1 = some c → CoverWalk g P S r.2 ∧ pathCost g r.2 = c) :=
  ⟨basic_le_walks fuel g P S r hNN hrun,
   fun c hc => (basic_attained fuel g P S r hC hrun).1 c hc⟩

theorem claim_C1_witness :
    CoverWalk gTwo PTwo STwo ["b", "a"] ∧ pathCost gTwo ["b", "a"] = 1 :=
  (claim_C1 50 gTwo PTwo STwo (some 1, ["b", "a"]) gTwo_NN gTwo_closed
    (by with_unfolding_all decide)).2 1 rfl

/-- C2 (amended: restricted to queries of at most two labels): on a
symmetric closed graph with non-negative weights and `P.card ≤ 2`, a
finite cost returned by `pruned_dp` is at least the cost returned by
`basic` on the same input. -/
theorem claim_C2 (f1 f2 : Nat) (g : Graph) (P : Finset String)
    (S : String → List String) (rb rp : Option ℚ × List String)
    (hP2 : P.card ≤ 2) (hS : SymmG g) (hC : ClosedG g) (hNN : NonNegW g)
    (hrunB : basic f1 g P S = some rb) (hrunP : pruned_dp f2 g P S = some rp) :
    ∀ q, rp.1 = some q → ∃ qb, rb.1 = some qb ∧ qb ≤ q := by
  intro q hq
  obtain ⟨p, hp, hle⟩ := pruned_cover_final f2 g P S rp hP2 hS hC hrunP q hq
  obtain ⟨qb, hqb, hqble⟩ := basic_le_walks f1 g P S rb hNN hrunB p hp
  exact ⟨qb, hqb, le_trans hqble hle⟩

theorem claim_C2_witness :
    ∃ qb, ((some 1, ["b", "a"]) : Option ℚ × List String).1 = some qb ∧ qb ≤ 1 :=
  claim_C2 50 50 gTwo PTwo STwo (some 1, ["b", "a"]) (some 1, ["b", "a"])
    (by decide) gTwo_symm gTwo_closed gTwo_NN
    (by with_unfolding_all decide) (by with_unfolding_all decide) 1 rfl

/-- C2, counterexample to the unrestricted original claim: on the
three-leaf star with one query label per leaf, the merge step lets
`pruned_dp` return the tree cost 3 while `basic` returns the best walk
cost 4, so pruning produced a strictly better cost than exact mode. -/
theorem claim_C2_cex :
    basic 100 gStar PStar SStar = some (some 4, ["r", "c", "q", "c", "p"]) ∧
    pruned_dp 100 gStar PStar SStar = some (some 3, ["q", "c"]) ∧
    (3 : ℚ) < 4 :=
  ⟨by with_unfolding_all decide, by with_unfolding_all decide, by norm_num⟩

/-- C3 (corrected: the stated behaviour holds for `basic` only): on a
non-empty graph with empty query, a completed run of `basic` returns cost
0 with a single-vertex path, but `pruned_dp` seeds no start state and
returns plus infinity with the empty path. -/
theorem claim_C3 (f1 f2 : Nat) (g : Graph) (S : String → List String)
    (r : Option ℚ × List String) (hne : g.nodes ≠ [])
    (hrun : basic f1 g ∅ S = some r) :
    (r.1 = some 0 ∧ ∃ v, r.2 = [v]) ∧ pruned_dp f2 g ∅ S = some (none, []) :=
  ⟨basic_empty f1 g S r hne hrun, pruned_dp_empty f2 g S⟩

theorem claim_C3_witness :
    (((some 0, ["a"]) : Option ℚ × List String).1 = some 0 ∧
      ∃ v, ((some 0, ["a"]) : Option ℚ × List String).2 = [v]) ∧
    pruned_dp 10 gOne (∅ : Finset String) SOne = some (none, []) :=
  claim_C3 10 10 gOne SOne (some 0, ["a"]) (by decide)
    (by with_unfolding_all decide)

/-- C3, counterexample to the original claim: the single-vertex graph has
a vertex, yet `pruned_dp` on the empty query returns plus infinity and the
empty path instead of cost 0 and a one-vertex path. -/
theorem claim_C3_cex :
    gOne.nodes ≠ [] ∧
    pruned_dp 10 gOne (∅ : Finset String) SOne = some (none, []) ∧
    (none : Option ℚ) ≠ some 0 :=
  ⟨by decide, by with_unfolding_all decide, by simp⟩

/-- C4: when a completed `basic` run returns a non-empty path, every pair
of consecutive vertices of that path is adjacent in the graph and the sum
of the corresponding edge weights equals the returned (finite) cost. -/
theorem claim_C4 (fuel : Nat) (g : Graph) (P : Finset String)
    (S : String → List String) (r : Option ℚ × List String)
    (hrun : basic fuel g P S = some r) (hne : r.2 ≠ []) :
    ∃ c, r.1 = some c ∧ chainB g r.2 = true ∧ pathCost g r.2 = c := by
  obtain ⟨st2, hInv, _, hbest, hpath⟩ := basic_final fuel g P S r hrun
  rcases hInv.bestOK with ⟨_, hbp⟩ | ⟨c, hb, _, hch, hcost, _⟩
  · rw [hpath] at hbp
    exact absurd hbp hne
  · refine ⟨c, by rw [← hbest]; exact hb, ?_, ?_⟩
    · rw [← hpath]; exact hch
    · rw [← hpath]; exact hcost

theorem claim_C4_witness :
    ∃ c, ((some 1, ["b", "a"]) : Option ℚ × List String).1 = some c ∧
      chainB gTwo ["b", "a"] = true ∧ pathCost gTwo ["b", "a"] = c :=
  claim_C4 50 gTwo PTwo STwo (some 1, ["b", "a"])
    (by with_unfolding_all decide) (by decide)

/-- C5: when a completed `basic` run returns a finite cost, the union of
`S(v) ∩ P` over the vertices of the returned path is exactly `P`. -/
theorem claim_C5 (fuel : Nat) (g : Graph) (P : Finset String)
    (S : String → List String) (r : Option ℚ × List String)
    (hrun : basic fuel g P S = some r) :
    ∀ c, r.1 = some c → pathLabs S P r.2 = P := by
  obtain ⟨st2, hInv, _, hbest, hpath⟩ := basic_final fuel g P S r hrun
  intro c hc
  rcases hInv.bestOK with ⟨hb, _⟩ | ⟨c2, _, _, _, _, hlabs⟩
  · rw [hbest, hc] at hb
    exact absurd hb (by simp)
  · rw [← hpath]
    exact hlabs

theorem claim_C5_witness : pathLabs STwo PTwo ["b", "a"] = PTwo :=
  claim_C5 50 gTwo PTwo STwo (some 1, ["b", "a"])
    (by with_unfolding_all decide) 1 rfl

/-- C6: when no walk of a symmetric closed graph covers the query,
completed runs of both engines return plus infinity together with the
empty path: unreachable queries are reported through the return value. -/
theorem claim_C6 (f1 f2 : Nat) (g : Graph) (P : Finset String)
    (S : String → List String) (rb rp : Option ℚ × List String)
    (hS : SymmG g) (hC : ClosedG g) (hno : ∀ p, ¬ CoverWalk g P S p)
    (hrunB : basic f1 g P S = some rb) (hrunP : pruned_dp f2 g P S = some rp) :
    rb = (none, []) ∧ rp = (none, []) := by
  have hB := basic_attained f1 g P S rb hC hrunB
  have hPex := pruned_ex_final f2 g P S rp hS hC hrunP
  have hb1 : rb.1 = none := by
    match h : rb.1 with
    | none => rfl
    | some c => exact absurd (hB.1 c h).1 (hno rb.2)
  have hp1 : rp.1 = none := by
    match h : rp.1 with
    | none => rfl
    | some q =>
      obtain ⟨p, hp⟩ := hPex.1 q h
      exact absurd hp (hno p)
  exact ⟨Prod.ext hb1 (hB.2 hb1), Prod.ext hp1 (hPex.2 hp1)⟩

theorem claim_C6_witness :
    ((none, []) : Option ℚ × List String) = (none, []) ∧
    ((none, []) : Option ℚ × List String) = (none, []) :=
  claim_C6 10 10 gOne PTwo SOne (none, []) (none, []) gOne_symm gOne_closed
    noCover_gOne (by with_unfolding_all decide) (by with_unfolding_all decide)

/-- C7: in both engines one loop iteration never increases a visited-table
entry (a change is strictly decreasing), and on graphs with non-negative
weights completed runs of both engines report non-negative best costs. -/
theorem claim_C7 (g : Graph) (P : Finset String) (S : String → List String)
    (st : LoopState) (f1 f2 : Nat) (rb rp : Option ℚ × List String)
    (hNN : NonNegW g) (hrunB : basic f1 g P S = some rb)
    (hrunP : pruned_dp f2 g P S = some rp) :
    (∀ k c c2, vLook st.visited k = some c →
      vLook (stepB g P S st).visited k = some c2 → c2 ≤ c ∧ (c2 ≠ c → c2 < c)) ∧
    (∀ k c c2, vLook st.visited k = some c →
      vLook (stepP g P S st).visited k = some c2 → c2 ≤ c ∧ (c2 ≠ c → c2 < c)) ∧
    (∀ q, rb.1 = some q → 0 ≤ q) ∧ (∀ q, rp.1 = some q → 0 ≤ q) := by
  refine ⟨?_, ?_, basic_NN_run f1 g P S rb hNN hrunB,
    pruned_NN_run f2 g P S rp hNN hrunP⟩
  · intro k c c2 hc hc2
    obtain ⟨c3, hc3, hle⟩ := stepB_visited_le g P S st k c hc
    rw [hc2] at hc3
    have h := Option.some.inj hc3
    subst h
    exact ⟨hle, fun hne2 => lt_of_le_of_ne hle hne2⟩
  · intro k c c2 hc hc2
    obtain ⟨c3, hc3, hle⟩ := stepP_visited_le g P S st k c hc
    rw [hc2] at hc3
    have h := Option.some.inj hc3
    subst h
    exact ⟨hle, fun hne2 => lt_of_le_of_ne hle hne2⟩

theorem claim_C7_witness :
    ((5 : ℚ) ≤ 5 ∧ ((5 : ℚ) ≠ 5 → (5 : ℚ) < 5)) ∧ (0 : ℚ) ≤ 1 := by
  have h := claim_C7 gTwo PTwo STwo stC7 50 50 (some 1, ["b", "a"])
    (some 1, ["b", "a"]) gTwo_NN
    (by with_unfolding_all decide) (by with_unfolding_all decide)
  exact ⟨h.1 ("a", {"x"}) 5 5 (by with_unfolding_all decide)
    (by with_unfolding_all decide), h.2.2.1 1 rfl⟩

/-- C8: when the popped `pruned_dp` entry is live and its cost exceeds
two thirds of the current best cost, the iteration performs neither the
neighbor relaxation nor the merge step: the state is discarded outright
or (when covering) only updates the incumbent, leaving the visited table
untouched and the queue equal to the popped remainder. -/
theorem claim_C8 (g : Graph) (P : Finset String) (S : String → List String)
    (st : LoopState) (e : Entry) (rest : List Entry)
    (hpop : heappop pyLt st.pq = some (e, rest))
    (hgt : gt23 e.cost st.best = true) :
    stepP g P S st = { st with pq := rest } ∨
    stepP g P S st =
      { st with pq := rest, best := some e.cost, bestPath := e.path } := by
  refine stepP_cases g P S st
    (fun s => s = { st with pq := rest } ∨
      s = { st with pq := rest, best := some e.cost, bestPath := e.path })
    ?_ ?_ ?_ ?_ ?_ ?_ ?_
  · intro h
    rw [h] at hpop
    exact absurd hpop (by simp)
  · intro e2 rest2 hpop2 _
    rw [hpop] at hpop2
    obtain ⟨rfl, rfl⟩ := Prod.mk.inj (Option.some.inj hpop2)
    exact Or.inl rfl
  · intro e2 rest2 hpop2 _ _
    rw [hpop] at hpop2
    obtain ⟨rfl, rfl⟩ := Prod.mk.inj (Option.some.inj hpop2)
    exact Or.inl rfl
  · intro e2 rest2 hpop2 _ _ _ _
    rw [hpop] at hpop2
    obtain ⟨rfl, rfl⟩ := Prod.mk.inj (Option.some.inj hpop2)
    exact Or.inr rfl
  · intro e2 rest2 hpop2 _ _ _ _
    rw [hpop] at hpop2
    obtain ⟨rfl, rfl⟩ := Prod.mk.inj (Option.some.inj hpop2)
    exact Or.inl rfl
  · intro e2 rest2 hpop2 _ _ _ _
    rw [hpop] at hpop2
    obtain ⟨rfl, rfl⟩ := Prod.mk.inj (Option.some.inj hpop2)
    exact Or.inl rfl
  · intro e2 rest2 hpop2 _ _ _ h5
    rw [hpop] at hpop2
    obtain ⟨rfl, rfl⟩ := Prod.mk.inj (Option.some.inj hpop2)
    rw [hgt] at h5
    exact absurd h5 (by simp)

theorem claim_C8_witness :
    stepP gTwo PTwo STwo stC8 = { stC8 with pq := [] } ∨
    stepP gTwo PTwo STwo stC8 =
      { stC8 with pq := [], best := some (5 / 2), bestPath := ["a"] } :=
  claim_C8 gTwo PTwo STwo stC8 ⟨5 / 2, "a", ∅, ["a"]⟩ []
    (by with_unfolding_all decide) (by with_unfolding_all decide)

/-- C9: every entry the merge loop adds to the frontier keeps the path of
the expanding state unchanged: an entry of the merged queue is either an
entry of the incoming queue, or carries exactly `e.path` together with the
combined cost and label set of some snapshot partner at `e.vertex`. -/
theorem claim_C9 (P : Finset String) (e : Entry) (snapshot : Visited)
    (st : LoopState) :
    ∀ x ∈ (mergeF P e snapshot st).pq, x ∈ st.pq ∨
      (x.path = e.path ∧ ∃ it ∈ snapshot, it.1.1 = e.vertex ∧
        x.cost = e.cost + it.2 ∧ x.labels = e.labels ∪ it.1.2) := by
  unfold mergeF
  induction snapshot generalizing st with
  | nil => exact fun x hx => Or.inl hx
  | cons it rest ih =>
    intro x hx
    simp only [List.foldl_cons] at hx
    rcases ih (mergeBody P e st it) x hx with h | h
    · unfold mergeBody at h
      dsimp only at h
      by_cases h1 : it.1.1 = e.vertex ∧ it.1.2 ⊆ P \ e.labels ∧ it.1.2 ≠ ∅
      · rw [if_pos h1] at h
        by_cases h2 : le23 (e.cost + it.2) st.best = true ∧
            ltD (e.cost + it.2)
              (vLook st.visited (e.vertex, e.labels ∪ it.1.2)) = true
        · rw [if_pos h2] at h
          rcases mem_heappush.mp h with h3 | h3
          · exact Or.inr ⟨by rw [h3], it, List.mem_cons_self it rest,
              h1.1, by rw [h3], by rw [h3]⟩
          · exact Or.inl h3
        · rw [if_neg h2] at h
          exact Or.inl h
      · rw [if_neg h1] at h
        exact Or.inl h
    · obtain ⟨hp, it2, hit2, hrest⟩ := h
      exact Or.inr ⟨hp, it2, List.mem_cons_of_mem it hit2, hrest⟩

theorem claim_C9_witness :
    (⟨2, "c", {"x", "y"}, ["p", "c"]⟩ : Entry) ∈ stC9.pq ∨
    ((⟨2, "c", {"x", "y"}, ["p", "c"]⟩ : Entry).path = eC9.path ∧
      ∃ it ∈ snapC9, it.1.1 = eC9.vertex ∧
        (⟨2, "c", {"x", "y"}, ["p", "c"]⟩ : Entry).cost = eC9.cost + it.2 ∧
        (⟨2, "c", {"x", "y"}, ["p", "c"]⟩ : Entry).labels = eC9.labels ∪ it.1.2) :=
  claim_C9 PTwo eC9 snapC9 stC9 ⟨2, "c", {"x", "y"}, ["p", "c"]⟩
    (by with_unfolding_all decide)

/-- C10 (amended: restricted to strictly positive edge weights): on a
closed graph with positive weights, if some vertex carries every query
label then a completed `basic` run returns cost 0 and a single-vertex
path whose vertex covers the query. -/
theorem claim_C10 (fuel : Nat) (g : Graph) (P : Finset String)
    (S : String → List String) (r : Option ℚ × List String) (v : String)
    (hP : PosW g) (hC : ClosedG g) (hv : v ∈ g.nodes) (hcov : P ⊆ SFin S v)
    (hrun : basic fuel g P S = some r) :
    r.1 = some 0 ∧ ∃ u, r.2 = [u] ∧ P ⊆ SFin S u := by
  have hNN : NonNegW g := fun w pr hpr => le_of_lt (hP w pr hpr)
  have hcw : CoverWalk g P S [v] := by
    refine ⟨by simp, by simp [chainB], ?_, ?_⟩
    · intro w hw
      simp only [List.mem_singleton] at hw
      rw [hw]
      exact hv
    · intro x hx
      simp only [pathLabs, Finset.union_empty, Finset.mem_inter]
      exact ⟨hcov hx, hx⟩
  obtain ⟨qb, hqb, hle⟩ := basic_le_walks fuel g P S r hNN hrun [v] hcw
  have h0 : pathCost g [v] = 0 := rfl
  have hge := basic_NN_run fuel g P S r hNN hrun qb hqb
  have hqb0 : qb = 0 := le_antisymm (by rw [h0] at hle; exact hle) hge
  obtain ⟨hcw2, hcost⟩ := (basic_attained fuel g P S r hC hrun).1 qb hqb
  obtain ⟨hne, hch, hing, hcov2⟩ := hcw2
  obtain ⟨u, hu⟩ := zero_cost_single hP r.2 hne hch (by rw [hcost, hqb0])
  refine ⟨by rw [hqb, hqb0], u, hu, ?_⟩
  intro x hx
  have hx2 := hcov2 hx
  rw [hu] at hx2
  simp only [pathLabs, Finset.union_empty, Finset.mem_inter] at hx2
  exact hx2.1

theorem claim_C10_witness :
    ((some 0, ["a"]) : Option ℚ × List String).1 = some 0 ∧
    ∃ u, ((some 0, ["a"]) : Option ℚ × List String).2 = [u] ∧
      PTwo ⊆ SFin SCov u :=
  claim_C10 10 gOne PTwo SCov (some 0, ["a"]) "a" gOne_pos gOne_closed
    (by with_unfolding_all decide) (by with_unfolding_all decide)
    (by with_unfolding_all decide)

/-- C10, counterexample to the unrestricted original claim: with a
zero-weight edge, `basic` returns cost 0 with the two-vertex path from the
zero edge even though the isolated vertex `z` carries every query label:
the returned path is not a single vertex. -/
theorem claim_C10_cex :
    "z" ∈ gZero.nodes ∧ PZero ⊆ SFin SZero "z" ∧
    basic 50 gZero PZero SZero = some (some 0, ["b", "a"]) ∧
    ¬ ∃ u : String, (["b", "a"] : List String) = [u] := by
  refine ⟨by decide, by with_unfolding_all decide,
    by with_unfolding_all decide, ?_⟩
  rintro ⟨u, hu⟩
  simp at hu


end GST
